import Mathlib

/-!
# Roman numeral codec (`Parser/roman.c`, `Include/roman.h`)

Shallow embedding of the encoder `Py_to_roman_numerals_from_int` and of the
decoder `Py_from_roman_numerals_to_int`, followed by the properties proved
about them.

Modelling conventions
* A C `char` is its character code, a `Nat` (ASCII execution character set):
  `'I'` is `73`.  `chr 'I'` is written for the C constant `'I'`.
* A C `int` is an `Int`.  No operation of the two functions can leave the
  32-bit range unless the scanned digit run has at least `2^31` characters
  (`++size`), where the C behaviour is undefined.
* The output buffer `char *numeral` is a memory `Nat → Nat` from offsets to
  character codes, so that writes at any offset are observable.
* The input `const char *` is the list of characters from the pointer up to
  the terminating NUL; reading at or past the end yields `0`.
* A loop whose termination is not structural takes a fuel argument and
  returns `none` when the fuel runs out.
-/

namespace Roman

/-- Character code of a C character constant. -/
def chr (c : Char) : Nat := c.toNat

/-- Character codes of a C string literal (without the terminating NUL). -/
def str (s : String) : List Nat := s.toList.map Char.toNat

/-- Output buffer: offset from the pointer `numeral` to the character stored there. -/
abbrev Buffer := Nat → Nat

/-- The memory a `const char *` to a NUL-terminated string points to. -/
def cstr (s : List Nat) : Buffer := fun i => s.getD i 0

/-- The `len` characters stored at offsets `0 .. len-1` of a buffer. -/
def text (b : Buffer) (len : Nat) : List Nat := (List.range len).map b

/-! ## C library functions used by the source -/

/-- C library `toupper` in the "C" locale. -/
def toupper (c : Nat) : Nat := if 97 ≤ c ∧ c ≤ 122 then c - 32 else c

/-- C library `tolower` in the "C" locale. -/
def tolower (c : Nat) : Nat := if 65 ≤ c ∧ c ≤ 90 then c + 32 else c

/-- C library `strncpy(dest + off, src, n)`: exactly `n` characters are written,
the characters of `src` followed by NUL padding when `src` is shorter than `n`. -/
def strncpy (dest : Buffer) (off : Nat) (src : List Nat) (n : Nat) : Buffer :=
  fun i => if off ≤ i ∧ i < off + n then src.getD (i - off) 0 else dest i

/-- Comparison loop of `strncasecmp`, at offset `i` with `k` characters left. -/
def strncasecmpFrom (s1 s2 : Buffer) (i : Nat) : Nat → Int
  | 0 => 0
  | k + 1 =>
    let c1 := tolower (s1 i)
    let c2 := tolower (s2 i)
    if c1 ≠ c2 then (c1 : Int) - (c2 : Int)
    else if c1 = 0 then 0
    else strncasecmpFrom s1 s2 (i + 1) k

/-- POSIX `strncasecmp(s1, s2, n)` in the POSIX locale (`_strnicmp` on MSVC):
compares at most `n` characters as if converted to lower case, stopping after
a NUL. -/
def strncasecmp (s1 s2 : Buffer) (n : Nat) : Int := strncasecmpFrom s1 s2 0 n

/-! ## `Include/roman.h` -/

/-- `#define Py_MAX_ROMAN_SIZE 16`, that is 15 + NUL. -/
def Py_MAX_ROMAN_SIZE : Int := 16

/-- `#define Py_IS_ROMAN_DIGIT(c)`. -/
def Py_IS_ROMAN_DIGIT (c : Nat) : Bool :=
  c == chr 'I' || c == chr 'V' || c == chr 'X' || c == chr 'L'
    || c == chr 'i' || c == chr 'v' || c == chr 'x' || c == chr 'l'
    || c == chr 'C' || c == chr 'D' || c == chr 'M'
    || c == chr 'c' || c == chr 'd' || c == chr 'm'

/-! ## `Parser/roman.c`: encoder -/

/-- `typedef struct { const char* numeral; int value; int size; } Numeral;` -/
structure Numeral where
  numeral : List Nat
  value : Int
  size : Int

/-- `static const Numeral map[]` of `Py_to_roman_numerals_from_int`. -/
def map : List Numeral :=
  [ ⟨str "M", 1000, 1⟩,
    ⟨str "CM", 900, 2⟩,
    ⟨str "D", 500, 1⟩,
    ⟨str "CD", 400, 2⟩,
    ⟨str "C", 100, 1⟩,
    ⟨str "XC", 90, 2⟩,
    ⟨str "L", 50, 1⟩,
    ⟨str "XL", 40, 2⟩,
    ⟨str "X", 10, 1⟩,
    ⟨str "IX", 9, 2⟩,
    ⟨str "V", 5, 1⟩,
    ⟨str "IV", 4, 2⟩,
    ⟨str "I", 1, 1⟩ ]

/-- Local variables of the encoder that its loops modify, with the buffer. -/
structure EncState where
  n : Int
  count : Int
  numeral : Buffer

/-- How a loop is left: by `return v`, or by falling out of it. -/
inductive Exit where
  | ret (v : Int) (numeral : Buffer)
  | done (st : EncState)

/-- The loop `while (n >= r->value) { ... }` for one rule `r`.  `fuel` bounds the
number of iterations; `none` when it does not suffice. -/
def whileLoop (r : Numeral) (size : Int) : Nat → EncState → Option Exit
  | fuel, st =>
    if st.n ≥ r.value then
      match fuel with
      | 0 => none
      | fuel + 1 =>
        let n := st.n - r.value
        let numeral := strncpy st.numeral st.count.toNat r.numeral r.size.toNat
        let count := st.count + r.size
        if count ≥ size then some (Exit.ret (-1) numeral)
        else whileLoop r size fuel ⟨n, count, numeral⟩
    else some (Exit.done st)

/-- The loop `for (const Numeral *r = map; r != end; ++r)` over the remaining rules. -/
def forLoop (size : Int) (fuel : Nat) : List Numeral → EncState → Option Exit
  | [], st => some (Exit.done st)
  | r :: rs, st =>
    match whileLoop r size fuel st with
    | none => none
    | some (Exit.ret v numeral) => some (Exit.ret v numeral)
    | some (Exit.done st) => forLoop size fuel rs st

/-- `int Py_to_roman_numerals_from_int(int n, char *numeral, int size)`: the
returned value and the buffer after the call.  Every iteration of a `while`
loop lowers `n` by at least 1, so `n` iterations are allowed to each. -/
def Py_to_roman_numerals_from_int (n : Int) (numeral : Buffer) (size : Int) :
    Option (Int × Buffer) :=
  if n > 3999 ∨ n ≤ 0 then some (-1, numeral)
  else
    match forLoop size n.toNat map ⟨n, 0, numeral⟩ with
    | none => none
    | some (Exit.ret v numeral) => some (v, numeral)
    | some (Exit.done st) => some (st.count, st.numeral)

/-! ## `Parser/roman.c`: decoder -/

/-- `static int roman_numeral_value(unsigned char c)`. -/
def roman_numeral_value (c : Nat) : Int :=
  let u := toupper c
  if u = chr 'I' then 1
  else if u = chr 'V' then 5
  else if u = chr 'X' then 10
  else if u = chr 'L' then 50
  else if u = chr 'C' then 100
  else if u = chr 'D' then 500
  else if u = chr 'M' then 1000
  else 0

/-- The loop `for (int i = size-1; i >= 0; --i)` of `from_roman`, entered with
`i + 1 = k`: it returns the final `total`. -/
def fromRomanLoop (s : Buffer) : Nat → Int → Int → Int
  | 0, total, _ => total
  | i + 1, total, prev =>
    let value := roman_numeral_value (s i)
    fromRomanLoop s i (total + (if value < prev then -value else value)) value

/-- `static int from_roman(const char *s, int size)`. -/
def from_roman (s : Buffer) (size : Int) : Int := fromRomanLoop s size.toNat 0 0

/-- The loop `for ( ; Py_IS_ROMAN_DIGIT(*s); ++s) ++size;`: the pointer `s` and
the counter `size` when it is left. -/
def scanLoop : List Nat → Int → List Nat × Int
  | [], size => ([], size)
  | c :: s, size => if Py_IS_ROMAN_DIGIT c then scanLoop s (size + 1) else (c :: s, size)

/-- `int Py_from_roman_numerals_to_int(const char **ptr)`: the returned value
and the value of `*ptr` after the call; `none` only if the encoder call does
not return. -/
def Py_from_roman_numerals_to_int (ptr : List Nat) : Option (Int × List Nat) :=
  let numeral : Buffer := fun _ => 0
  let start := ptr
  let (s, size) := scanLoop ptr 0
  if size = 0 ∨ size ≥ Py_MAX_ROMAN_SIZE then some (-1, s)
  else
    let n := from_roman (cstr start) size
    match Py_to_roman_numerals_from_int n numeral Py_MAX_ROMAN_SIZE with
    | none => none
    | some (ret, numeral) =>
      if ret < 0 ∨ numeral size.toNat ≠ 0 ∨ strncasecmp (cstr start) numeral size.toNat ≠ 0 then
        some (-1, s)
      else some (n, s)

/-! ## Descriptions used in the statements and proofs

Pure functions that describe what the loops above compute: the rules the
encoder applies, the positional form of a numeral, the relaxed summation over
a list, and the decoder's verdict on a scanned run. -/

/-- Rules applied by the encoder for `n`, in order, when capacity is no
obstacle: each rule `r` is applied `n / r.value` times to the current `n` and
leaves `n % r.value`. -/
def greedy : List Numeral → Int → List Numeral
  | [], _ => []
  | r :: rs, n => List.replicate (n / r.value).toNat r ++ greedy rs (n % r.value)

/-- Body of the `while` loop up to the capacity test: subtract, copy, count. -/
def appendStep (r : Numeral) (st : EncState) : EncState :=
  ⟨st.n - r.value, st.count + r.size,
    strncpy st.numeral st.count.toNat r.numeral r.size.toNat⟩

/-- Run the loop body for each rule of a list, with the capacity test after each. -/
def appendAll (size : Int) : List Numeral → EncState → Exit
  | [], st => Exit.done st
  | r :: t, st =>
    if (appendStep r st).count ≥ size then Exit.ret (-1) (appendStep r st).numeral
    else appendAll size t (appendStep r st)

/-- Concatenated symbols of a list of rules. -/
def symbols : List Numeral → List Nat
  | [] => []
  | r :: t => r.numeral ++ symbols t

/-- Sum of the `size` fields of a list of rules. -/
def totalSize : List Numeral → Int
  | [] => 0
  | r :: t => r.size + totalSize t

/-- Sum of the `value` fields of a list of rules. -/
def totalValue : List Numeral → Int
  | [] => 0
  | r :: t => r.value + totalValue t

/-- Values of `count` after each append step, starting from `count = c`. -/
def accum : Int → List Numeral → List Int
  | _, [] => []
  | c, r :: t => (c + r.size) :: accum (c + r.size) t

/-- Rules applied for one decimal digit `d` by a group of rules worth 9, 5, 4
and 1 units. -/
def digitRules (r9 r5 r4 r1 : Numeral) (d : Nat) : List Numeral :=
  List.replicate (d / 9) r9 ++ (List.replicate (d % 9 / 5) r5
    ++ (List.replicate (d % 9 % 5 / 4) r4 ++ List.replicate (d % 9 % 5 % 4) r1))

/-- Numerals of the hundreds digit. -/
def hundredsTable : List (List Nat) :=
  [str "", str "C", str "CC", str "CCC", str "CD", str "D", str "DC", str "DCC", str "DCCC",
    str "CM"]

/-- Numerals of the tens digit. -/
def tensTable : List (List Nat) :=
  [str "", str "X", str "XX", str "XXX", str "XL", str "L", str "LX", str "LXX", str "LXXX",
    str "XC"]

/-- Numerals of the units digit. -/
def unitsTable : List (List Nat) :=
  [str "", str "I", str "II", str "III", str "IV", str "V", str "VI", str "VII", str "VIII",
    str "IX"]

/-- The standard positional definition of the Roman numeral of `n`. -/
def positional (n : Int) : List Nat :=
  List.replicate (n / 1000).toNat (chr 'M')
    ++ (hundredsTable.getD (n / 100 % 10).toNat []
    ++ (tensTable.getD (n / 10 % 10).toNat []
    ++ unitsTable.getD (n % 10).toNat []))

/-- One iteration of the loop of `from_roman` on the pair `(total, prev)`. -/
def frStep (c : Nat) (x : Int × Int) : Int × Int :=
  let value := roman_numeral_value c
  (x.1 + (if value < x.2 then -value else value), value)

/-- The loop of `from_roman` over a list of characters, rightmost first. -/
def frPair (l : List Nat) (x : Int × Int) : Int × Int := l.foldr frStep x

/-- The relaxed summation over a list of characters. -/
def frList (l : List Nat) : Int := (frPair l (0, 0)).1

/-- Upper-case Roman digit. -/
def isUpperRoman (c : Nat) : Bool :=
  c == chr 'I' || c == chr 'V' || c == chr 'X' || c == chr 'L' || c == chr 'C' || c == chr 'D'
    || c == chr 'M'

/-- The decoder's verdict as a function of the scanned run. -/
def decodeRun (run : List Nat) : Int :=
  if run.length = 0 ∨ 16 ≤ run.length then -1
  else if 1 ≤ frList run ∧ frList run ≤ 3999 ∧ run.map toupper = positional (frList run)
  then frList run
  else -1

/-- The encoder's output for `n`: the characters it writes into a zeroed buffer
of capacity `Py_MAX_ROMAN_SIZE`, or `none` when the call fails. -/
def encode (n : Int) : Option (List Nat) :=
  match Py_to_roman_numerals_from_int n (fun _ => 0) Py_MAX_ROMAN_SIZE with
  | some (count, numeral) => if count < 0 then none else some (text numeral count.toNat)
  | none => none

/-- Values of `count` after each append step of the encoder for `n` when
capacity is no obstacle: the accumulated output lengths.  (`forLoop_eq` shows
that the loops of the encoder perform exactly the appends of `greedy map n`,
in this order, until the capacity test stops them.) -/
def appendLengths (n : Int) : List Int := accum 0 (greedy map n)

/-- Two texts that differ at most in the case of their letters. -/
def SameUpToCase (s t : List Nat) : Prop :=
  List.Forall₂ (fun a b => toupper a = toupper b) s t

/-- Face value of a Roman digit, in either case: I=1, V=5, X=10, L=50, C=100,
D=500, M=1000 (and 0 for any other character). -/
def faceValue (c : Nat) : Int :=
  if c = chr 'I' ∨ c = chr 'i' then 1
  else if c = chr 'V' ∨ c = chr 'v' then 5
  else if c = chr 'X' ∨ c = chr 'x' then 10
  else if c = chr 'L' ∨ c = chr 'l' then 50
  else if c = chr 'C' ∨ c = chr 'c' then 100
  else if c = chr 'D' ∨ c = chr 'd' then 500
  else if c = chr 'M' ∨ c = chr 'm' then 1000
  else 0

/-- Sum of the face values of the characters of a text, each taken negatively
exactly when it is strictly less than the face value of the next character and
positively otherwise; the last character is taken positively. -/
def signedSum : List Nat → Int
  | [] => 0
  | [c] => faceValue c
  | c :: d :: rest =>
    (if faceValue c < faceValue d then -faceValue c else faceValue c) + signedSum (d :: rest)

/-! ## Theorems -/

theorem whileLoop_eq (r : Numeral) (size : Int) (hv : 0 < r.value) :
    ∀ (fuel : Nat) (st : EncState), 0 ≤ st.n → st.n.toNat ≤ fuel →
      whileLoop r size fuel st
        = some (appendAll size (List.replicate (st.n / r.value).toNat r) st) := by
  intro fuel
  induction fuel with
  | zero =>
    intro st h0 hf
    have hn : st.n = 0 := by omega
    have hlt : ¬ st.n ≥ r.value := by omega
    have hq : st.n / r.value = 0 := by rw [hn]; simp
    unfold whileLoop
    simp [hlt, hq, appendAll]
  | succ f ih =>
    intro st h0 hf
    unfold whileLoop
    by_cases hge : st.n ≥ r.value
    · have hq : (st.n / r.value).toNat = ((st.n - r.value) / r.value).toNat + 1 := by
        have h1 : st.n / r.value = (st.n - r.value) / r.value + 1 := by
          have : st.n = (st.n - r.value) + r.value := by ring
          conv_lhs => rw [this]
          rw [Int.add_ediv_of_dvd_right (dvd_refl _), Int.ediv_self (ne_of_gt hv)]
        have h2 : 0 ≤ (st.n - r.value) / r.value := Int.ediv_nonneg (by omega) (le_of_lt hv)
        omega
      simp only [hge, if_true]
      rw [hq, List.replicate_succ]
      simp only [appendAll, appendStep]
      split
      · rfl
      · exact ih ⟨st.n - r.value, st.count + r.size, _⟩ (by simp; omega) (by simp; omega)
    · have hq : st.n / r.value = 0 := Int.ediv_eq_zero_of_lt h0 (by omega)
      simp [hge, hq, appendAll]

theorem appendAll_append (size : Int) (l1 l2 : List Numeral) :
    ∀ st : EncState, appendAll size (l1 ++ l2) st
      = match appendAll size l1 st with
        | Exit.ret v b => Exit.ret v b
        | Exit.done st1 => appendAll size l2 st1 := by
  induction l1 with
  | nil => intro st; rfl
  | cons r t ih =>
    intro st
    simp only [List.cons_append, appendAll]
    split
    · rfl
    · exact ih _

theorem appendAll_done_n (size : Int) (l : List Numeral) :
    ∀ st st1 : EncState, appendAll size l st = Exit.done st1 →
      st1.n = st.n - totalValue l := by
  induction l with
  | nil =>
    intro st st1 h
    simp only [appendAll, Exit.done.injEq] at h
    simp [← h, totalValue]
  | cons r t ih =>
    intro st st1 h
    simp only [appendAll] at h
    split at h
    · cases h
    · have := ih _ _ h
      simp only [appendStep] at this
      simp only [totalValue]
      omega

theorem totalValue_replicate (k : Nat) (r : Numeral) :
    totalValue (List.replicate k r) = k * r.value := by
  induction k with
  | zero => simp [totalValue]
  | succ k ih => simp only [List.replicate_succ, totalValue, ih]; push_cast; ring

theorem forLoop_eq (size : Int) (fuel : Nat) :
    ∀ (rs : List Numeral) (st : EncState), (∀ r ∈ rs, 0 < r.value) → 0 ≤ st.n →
      st.n.toNat ≤ fuel →
      forLoop size fuel rs st = some (appendAll size (greedy rs st.n) st) := by
  intro rs
  induction rs with
  | nil => intro st _ _ _; rfl
  | cons r rs ih =>
    intro st hv h0 hf
    have hr : 0 < r.value := hv r (List.mem_cons_self _ _)
    simp only [forLoop, greedy]
    rw [whileLoop_eq r size hr fuel st h0 hf, appendAll_append]
    cases hw : appendAll size (List.replicate (st.n / r.value).toNat r) st with
    | ret v b => rfl
    | done st1 =>
      have hn := appendAll_done_n size _ st st1 hw
      rw [totalValue_replicate] at hn
      have hq : 0 ≤ st.n / r.value := Int.ediv_nonneg h0 (le_of_lt hr)
      have hn1 : st1.n = st.n % r.value := by
        rw [hn, Int.toNat_of_nonneg hq, Int.emod_def]; ring
      have hm0 : 0 ≤ st.n % r.value := Int.emod_nonneg _ (ne_of_gt hr)
      have hm1 : st.n % r.value ≤ st.n := by
        have := Int.mul_nonneg (le_of_lt hr) hq
        rw [Int.emod_def]; omega
      simp only
      rw [ih st1 (fun r hr => hv r (List.mem_cons_of_mem _ hr)) (by omega) (by omega), hn1]

theorem map_value_pos : ∀ r ∈ map, 0 < r.value := by decide

theorem encoder_eq (n : Int) (numeral : Buffer) (size : Int) (h1 : 1 ≤ n) (h2 : n ≤ 3999) :
    Py_to_roman_numerals_from_int n numeral size
      = match appendAll size (greedy map n) ⟨n, 0, numeral⟩ with
        | Exit.ret v b => some (v, b)
        | Exit.done st => some (st.count, st.numeral) := by
  have hr : ¬ (n > 3999 ∨ n ≤ 0) := by omega
  simp only [Py_to_roman_numerals_from_int, hr, if_false]
  rw [forLoop_eq size n.toNat map ⟨n, 0, numeral⟩ map_value_pos (by simp; omega) (by simp)]
  cases appendAll size (greedy map n) ⟨n, 0, numeral⟩ <;> rfl

theorem encoder_out_of_range (n : Int) (numeral : Buffer) (size : Int) (h : n ≤ 0 ∨ 3999 < n) :
    Py_to_roman_numerals_from_int n numeral size = some (-1, numeral) := by
  have hr : n > 3999 ∨ n ≤ 0 := by omega
  simp only [Py_to_roman_numerals_from_int, hr, if_true]

theorem strncpy_nil (b : Buffer) (off : Nat) : strncpy b off [] 0 = b := by
  funext i
  simp [strncpy]

theorem strncpy_append (b : Buffer) (off : Nat) (l1 l2 : List Nat) :
    strncpy (strncpy b off l1 l1.length) (off + l1.length) l2 l2.length
      = strncpy b off (l1 ++ l2) (l1 ++ l2).length := by
  funext i
  simp only [strncpy, List.length_append]
  by_cases h1 : off ≤ i ∧ i < off + l1.length
  · have h2 : ¬ (off + l1.length ≤ i ∧ i < off + l1.length + l2.length) := by omega
    have h3 : off ≤ i ∧ i < off + (l1.length + l2.length) := by omega
    simp only [h1, h2, h3, and_self, if_true, if_false]
    rw [List.getD_append _ _ _ _ (by omega)]
  · by_cases h2 : off + l1.length ≤ i ∧ i < off + l1.length + l2.length
    · have h3 : off ≤ i ∧ i < off + (l1.length + l2.length) := by omega
      simp only [h2, h3, and_self, if_true]
      rw [List.getD_append_right _ _ _ _ (by omega)]
      congr 1
      omega
    · have h3 : ¬ (off ≤ i ∧ i < off + (l1.length + l2.length)) := by omega
      simp only [h1, h2, h3, if_false]

theorem totalSize_eq_length (l : List Numeral) (hsz : ∀ r ∈ l, r.size = r.numeral.length) :
    totalSize l = (symbols l).length := by
  induction l with
  | nil => rfl
  | cons r t ih =>
    simp only [totalSize, symbols, List.length_append]
    rw [ih (fun r hr => hsz r (List.mem_cons_of_mem _ hr)), hsz r (List.mem_cons_self _ _)]
    push_cast
    rfl

theorem appendAll_ok (size : Int) (l : List Numeral)
    (hsz : ∀ r ∈ l, r.size = r.numeral.length) :
    ∀ st : EncState, 0 ≤ st.count → (l = [] ∨ st.count + totalSize l < size) →
      appendAll size l st
        = Exit.done ⟨st.n - totalValue l, st.count + totalSize l,
            strncpy st.numeral st.count.toNat (symbols l) (symbols l).length⟩ := by
  induction l with
  | nil =>
    intro st _ _
    simp [appendAll, totalValue, totalSize, symbols, strncpy_nil]
  | cons r t ih =>
    intro st hc hlt
    have hr : r.size = r.numeral.length := hsz r (List.mem_cons_self _ _)
    have ht : ∀ r ∈ t, r.size = r.numeral.length := fun r hr => hsz r (List.mem_cons_of_mem _ hr)
    have htot : 0 ≤ totalSize t := by rw [totalSize_eq_length t ht]; omega
    have hlt2 : st.count + (r.size + totalSize t) < size := by
      rcases hlt with h | h
      · cases h
      · simpa [totalSize] using h
    have hno : ¬ (st.count + r.size ≥ size) := by omega
    simp only [appendAll, appendStep, hno, if_false]
    rw [ih ht ⟨_, _, _⟩ (by simp; omega) (Or.inr (by simp; omega))]
    simp only [totalValue, totalSize, symbols]
    have e1 : r.size.toNat = r.numeral.length := by omega
    have e2 : (st.count + r.size).toNat = st.count.toNat + r.numeral.length := by omega
    rw [e1, e2, strncpy_append, Int.sub_sub, Int.add_assoc]

theorem appendAll_fail (size : Int) (l : List Numeral) :
    ∀ st : EncState, l ≠ [] → size ≤ st.count + totalSize l →
      ∃ b, appendAll size l st = Exit.ret (-1) b := by
  induction l with
  | nil => intro st h _; exact absurd rfl h
  | cons r t ih =>
    intro st _ hge
    simp only [appendAll, appendStep]
    split
    · exact ⟨_, rfl⟩
    · rename_i hno
      apply ih
      · intro ht
        subst ht
        simp only [totalSize] at hge
        omega
      · simp only [totalSize] at hge ⊢
        omega

theorem appendAll_ret (size : Int) (l : List Numeral) :
    ∀ (st : EncState) (v : Int) (b : Buffer), appendAll size l st = Exit.ret v b → v = -1 := by
  induction l with
  | nil => intro st v b h; cases h
  | cons r t ih =>
    intro st v b h
    simp only [appendAll] at h
    split at h
    · cases h; rfl
    · exact ih _ _ _ h

theorem appendAll_fail_iff_accum (size : Int) (l : List Numeral) :
    ∀ st : EncState, (∃ b, appendAll size l st = Exit.ret (-1) b)
      ↔ ∃ c ∈ accum st.count l, size ≤ c := by
  induction l with
  | nil =>
    intro st
    simp [appendAll, accum]
  | cons r t ih =>
    intro st
    simp only [appendAll, appendStep, accum, List.mem_cons, exists_eq_or_imp]
    by_cases h : st.count + r.size ≥ size
    · simp only [h, if_true]
      exact ⟨fun _ => Or.inl trivial, fun _ => ⟨_, rfl⟩⟩
    · simp only [h, if_false]
      rw [ih]
      constructor
      · intro hx; exact Or.inr hx
      · intro hx
        rcases hx with hx | hx
        · exact hx.elim
        · exact hx

theorem greedy_group100 (s9 s5 s4 s1 : List Nat) (z9 z5 z4 z1 : Int) (rest : List Numeral)
    (m : Int) (h0 : 0 ≤ m) (h1 : m < 1000) :
    greedy (⟨s9, 900, z9⟩ :: ⟨s5, 500, z5⟩ :: ⟨s4, 400, z4⟩ :: ⟨s1, 100, z1⟩ :: rest) m
      = digitRules ⟨s9, 900, z9⟩ ⟨s5, 500, z5⟩ ⟨s4, 400, z4⟩ ⟨s1, 100, z1⟩ (m / 100).toNat
          ++ greedy rest (m % 100) := by
  have e1 : (m / 900).toNat = (m / 100).toNat / 9 := by omega
  have e2 : (m % 900 / 500).toNat = (m / 100).toNat % 9 / 5 := by omega
  have e3 : (m % 900 % 500 / 400).toNat = (m / 100).toNat % 9 % 5 / 4 := by omega
  have e4 : (m % 900 % 500 % 400 / 100).toNat = (m / 100).toNat % 9 % 5 % 4 := by omega
  have e5 : m % 900 % 500 % 400 % 100 = m % 100 := by omega
  simp only [greedy, digitRules, e1, e2, e3, e4, e5, List.append_assoc]

theorem greedy_group10 (s9 s5 s4 s1 : List Nat) (z9 z5 z4 z1 : Int) (rest : List Numeral)
    (m : Int) (h0 : 0 ≤ m) (h1 : m < 100) :
    greedy (⟨s9, 90, z9⟩ :: ⟨s5, 50, z5⟩ :: ⟨s4, 40, z4⟩ :: ⟨s1, 10, z1⟩ :: rest) m
      = digitRules ⟨s9, 90, z9⟩ ⟨s5, 50, z5⟩ ⟨s4, 40, z4⟩ ⟨s1, 10, z1⟩ (m / 10).toNat
          ++ greedy rest (m % 10) := by
  have e1 : (m / 90).toNat = (m / 10).toNat / 9 := by omega
  have e2 : (m % 90 / 50).toNat = (m / 10).toNat % 9 / 5 := by omega
  have e3 : (m % 90 % 50 / 40).toNat = (m / 10).toNat % 9 % 5 / 4 := by omega
  have e4 : (m % 90 % 50 % 40 / 10).toNat = (m / 10).toNat % 9 % 5 % 4 := by omega
  have e5 : m % 90 % 50 % 40 % 10 = m % 10 := by omega
  simp only [greedy, digitRules, e1, e2, e3, e4, e5, List.append_assoc]

theorem greedy_group1 (s9 s5 s4 s1 : List Nat) (z9 z5 z4 z1 : Int)
    (m : Int) (h0 : 0 ≤ m) (h1 : m < 10) :
    greedy [⟨s9, 9, z9⟩, ⟨s5, 5, z5⟩, ⟨s4, 4, z4⟩, ⟨s1, 1, z1⟩] m
      = digitRules ⟨s9, 9, z9⟩ ⟨s5, 5, z5⟩ ⟨s4, 4, z4⟩ ⟨s1, 1, z1⟩ m.toNat := by
  have e1 : (m / 9).toNat = m.toNat / 9 := by omega
  have e2 : (m % 9 / 5).toNat = m.toNat % 9 / 5 := by omega
  have e3 : (m % 9 % 5 / 4).toNat = m.toNat % 9 % 5 / 4 := by omega
  have e4 : (m % 9 % 5 % 4 / 1).toNat = m.toNat % 9 % 5 % 4 := by omega
  simp only [greedy, digitRules, e1, e2, e3, e4, List.append_nil]

/-- The rules the encoder applies for `n`, digit by digit. -/
theorem greedy_map (n : Int) :
    greedy map n
      = List.replicate (n / 1000).toNat ⟨str "M", 1000, 1⟩
        ++ (digitRules ⟨str "CM", 900, 2⟩ ⟨str "D", 500, 1⟩ ⟨str "CD", 400, 2⟩ ⟨str "C", 100, 1⟩
              (n / 100 % 10).toNat
        ++ (digitRules ⟨str "XC", 90, 2⟩ ⟨str "L", 50, 1⟩ ⟨str "XL", 40, 2⟩ ⟨str "X", 10, 1⟩
              (n / 10 % 10).toNat
        ++ digitRules ⟨str "IX", 9, 2⟩ ⟨str "V", 5, 1⟩ ⟨str "IV", 4, 2⟩ ⟨str "I", 1, 1⟩
              (n % 10).toNat)) := by
  have a1 : n % 1000 / 100 = n / 100 % 10 := by omega
  have a2 : n % 1000 % 100 = n % 100 := by omega
  have a3 : n % 100 / 10 = n / 10 % 10 := by omega
  have a4 : n % 100 % 10 = n % 10 := by omega
  have hM : ∀ (s : List Nat) (z : Int) (rest : List Numeral),
      greedy (⟨s, 1000, z⟩ :: rest) n
        = List.replicate (n / 1000).toNat ⟨s, 1000, z⟩ ++ greedy rest (n % 1000) :=
    fun _ _ _ => rfl
  unfold map
  rw [hM, greedy_group100 _ _ _ _ _ _ _ _ _ _ (by omega) (by omega), a1, a2,
    greedy_group10 _ _ _ _ _ _ _ _ _ _ (by omega) (by omega), a3, a4,
    greedy_group1 _ _ _ _ _ _ _ _ _ (by omega) (by omega)]

theorem symbols_append (l1 l2 : List Numeral) :
    symbols (l1 ++ l2) = symbols l1 ++ symbols l2 := by
  induction l1 with
  | nil => rfl
  | cons r t ih =>
    show r.numeral ++ symbols (t ++ l2) = (r.numeral ++ symbols t) ++ symbols l2
    rw [ih, List.append_assoc]

theorem symbols_replicate_M (k : Nat) (v z : Int) :
    symbols (List.replicate k ⟨str "M", v, z⟩) = List.replicate k (chr 'M') := by
  induction k with
  | zero => rfl
  | succ k ih =>
    simp only [List.replicate_succ, symbols, ih]
    rfl

theorem symbols_hundreds : ∀ d < 10,
    symbols (digitRules ⟨str "CM", 900, 2⟩ ⟨str "D", 500, 1⟩ ⟨str "CD", 400, 2⟩
      ⟨str "C", 100, 1⟩ d) = hundredsTable.getD d [] := by
  decide

theorem symbols_tens : ∀ d < 10,
    symbols (digitRules ⟨str "XC", 90, 2⟩ ⟨str "L", 50, 1⟩ ⟨str "XL", 40, 2⟩
      ⟨str "X", 10, 1⟩ d) = tensTable.getD d [] := by
  decide

theorem symbols_units : ∀ d < 10,
    symbols (digitRules ⟨str "IX", 9, 2⟩ ⟨str "V", 5, 1⟩ ⟨str "IV", 4, 2⟩
      ⟨str "I", 1, 1⟩ d) = unitsTable.getD d [] := by
  decide

/-- The symbols the encoder appends for `n` spell the positional numeral of `n`. -/
theorem symbols_greedy_map (n : Int) : symbols (greedy map n) = positional n := by
  rw [greedy_map, positional]
  simp only [symbols_append, symbols_replicate_M]
  rw [symbols_hundreds _ (by omega), symbols_tens _ (by omega), symbols_units _ (by omega)]

theorem map_size_eq : ∀ r ∈ map, r.size = r.numeral.length := by decide

theorem greedy_subset (rs : List Numeral) : ∀ (n : Int), ∀ r ∈ greedy rs n, r ∈ rs := by
  induction rs with
  | nil => intro n r h; cases h
  | cons a rs ih =>
    intro n r h
    simp only [greedy, List.mem_append] at h
    rcases h with h | h
    · rw [List.eq_of_mem_replicate h]; exact List.mem_cons_self _ _
    · exact List.mem_cons_of_mem _ (ih _ r h)

theorem greedy_size_eq (n : Int) : ∀ r ∈ greedy map n, r.size = r.numeral.length :=
  fun r hr => map_size_eq r (greedy_subset map n r hr)

theorem frPair_append (l1 l2 : List Nat) (x : Int × Int) :
    frPair (l1 ++ l2) x = frPair l1 (frPair l2 x) := by
  simp [frPair, List.foldr_append]

theorem frPair_shift (l : List Nat) (t p : Int) :
    frPair l (t, p) = ((frPair l (0, p)).1 + t, (frPair l (0, p)).2) := by
  induction l with
  | nil => simp [frPair]
  | cons c l ih =>
    have h1 : frPair (c :: l) (t, p) = frStep c (frPair l (t, p)) := rfl
    have h2 : frPair (c :: l) (0, p) = frStep c (frPair l (0, p)) := rfl
    rw [h1, h2, ih]
    simp only [frStep]
    ext
    · simp only; ring
    · rfl

theorem frPair_units : ∀ d < 10,
    (frPair (unitsTable.getD d []) (0, 0)).1 = d
      ∧ (frPair (unitsTable.getD d []) (0, 0)).2 ∈ [(0 : Int), 1, 5] := by
  decide

theorem frPair_tens : ∀ d < 10, ∀ p ∈ [(0 : Int), 1, 5],
    (frPair (tensTable.getD d []) (0, p)).1 = 10 * d
      ∧ (frPair (tensTable.getD d []) (0, p)).2 ∈ [(0 : Int), 1, 5, 10, 50] := by
  decide

theorem frPair_hundreds : ∀ d < 10, ∀ p ∈ [(0 : Int), 1, 5, 10, 50],
    (frPair (hundredsTable.getD d []) (0, p)).1 = 100 * d
      ∧ (frPair (hundredsTable.getD d []) (0, p)).2 ∈ [(0 : Int), 1, 5, 10, 50, 100, 500, 1000] := by
  decide

theorem frPair_thousands : ∀ a < 4, ∀ p ∈ [(0 : Int), 1, 5, 10, 50, 100, 500, 1000],
    (frPair (List.replicate a (chr 'M')) (0, p)).1 = 1000 * a := by
  decide

/-- The relaxed summation inverts the positional numeral on the encoder's range. -/
theorem frList_positional (n : Int) (h0 : 0 ≤ n) (h1 : n ≤ 3999) : frList (positional n) = n := by
  obtain ⟨u1, u2⟩ := frPair_units (n % 10).toNat (by omega)
  obtain ⟨t1, t2⟩ := frPair_tens (n / 10 % 10).toNat (by omega) _ u2
  obtain ⟨c1, c2⟩ := frPair_hundreds (n / 100 % 10).toNat (by omega) _ t2
  have m1 := frPair_thousands (n / 1000).toNat (by omega) _ c2
  simp only [frList, positional, frPair_append]
  rw [frPair_shift (tensTable.getD _ _), frPair_shift (hundredsTable.getD _ _),
    frPair_shift (List.replicate _ _)]
  simp only [u1, t1, c1, m1]
  omega

theorem units_length : ∀ d < 10, (unitsTable.getD d []).length ≤ 4
    ∧ ((unitsTable.getD d []).length = 4 ↔ d = 8) ∧ ((unitsTable.getD d []).length = 0 ↔ d = 0) := by
  decide

theorem tens_length : ∀ d < 10, (tensTable.getD d []).length ≤ 4
    ∧ ((tensTable.getD d []).length = 4 ↔ d = 8) ∧ ((tensTable.getD d []).length = 0 ↔ d = 0) := by
  decide

theorem hundreds_length : ∀ d < 10, (hundredsTable.getD d []).length ≤ 4
    ∧ ((hundredsTable.getD d []).length = 4 ↔ d = 8)
    ∧ ((hundredsTable.getD d []).length = 0 ↔ d = 0) := by
  decide

/-- Length of the positional numeral on the encoder's range. -/
theorem positional_length (n : Int) (h0 : 1 ≤ n) (h1 : n ≤ 3999) :
    1 ≤ (positional n).length ∧ (positional n).length ≤ 15
      ∧ ((positional n).length = 15 ↔ n = 3888) := by
  obtain ⟨u1, u2, u3⟩ := units_length (n % 10).toNat (by omega)
  obtain ⟨t1, t2, t3⟩ := tens_length (n / 10 % 10).toNat (by omega)
  obtain ⟨c1, c2, c3⟩ := hundreds_length (n / 100 % 10).toNat (by omega)
  simp only [positional, List.length_append, List.length_replicate]
  omega

theorem table_upper : ∀ d < 10,
    (∀ c ∈ unitsTable.getD d [], isUpperRoman c = true)
      ∧ (∀ c ∈ tensTable.getD d [], isUpperRoman c = true)
      ∧ (∀ c ∈ hundredsTable.getD d [], isUpperRoman c = true) := by
  decide

/-- Every character of a positional numeral is an upper-case Roman digit. -/
theorem positional_upper (n : Int) : ∀ c ∈ positional n, isUpperRoman c = true := by
  obtain ⟨u1, -, -⟩ := table_upper (n % 10).toNat (by omega)
  obtain ⟨-, t1, -⟩ := table_upper (n / 10 % 10).toNat (by omega)
  obtain ⟨-, -, c1⟩ := table_upper (n / 100 % 10).toNat (by omega)
  intro c hc
  simp only [positional, List.mem_append] at hc
  rcases hc with h | h | h | h
  · rw [List.eq_of_mem_replicate h]; rfl
  · exact c1 c h
  · exact t1 c h
  · exact u1 c h

/-- What the encoder does for `n` in range, for any buffer and capacity. -/
theorem encoder_in_range (n : Int) (numeral : Buffer) (size : Int) (h1 : 1 ≤ n) (h2 : n ≤ 3999) :
    (((positional n).length : Int) < size →
        Py_to_roman_numerals_from_int n numeral size
          = some (((positional n).length : Int),
              strncpy numeral 0 (positional n) (positional n).length))
      ∧ (size ≤ ((positional n).length : Int) →
        ∃ b, Py_to_roman_numerals_from_int n numeral size = some (-1, b)) := by
  have hsz := greedy_size_eq n
  have htot : totalSize (greedy map n) = (positional n).length := by
    rw [totalSize_eq_length _ hsz, symbols_greedy_map]
  have hlen := positional_length n h1 h2
  rw [encoder_eq n numeral size h1 h2]
  constructor
  · intro hlt
    rw [appendAll_ok size _ hsz ⟨n, 0, numeral⟩ (le_refl _) (Or.inr (by simp only [htot]; omega))]
    simp only [htot, symbols_greedy_map, Int.toNat_zero, zero_add]
  · intro hge
    have hne : greedy map n ≠ [] := by
      intro h
      rw [h] at htot
      simp only [totalSize] at htot
      omega
    obtain ⟨b, hb⟩ := appendAll_fail size _ ⟨n, 0, numeral⟩ hne (by simp only [htot]; omega)
    exact ⟨b, by rw [hb]⟩

theorem scanLoop_eq (ptr : List Nat) : ∀ size : Int,
    scanLoop ptr size
      = (ptr.dropWhile Py_IS_ROMAN_DIGIT, size + (ptr.takeWhile Py_IS_ROMAN_DIGIT).length) := by
  induction ptr with
  | nil => intro size; simp [scanLoop]
  | cons c s ih =>
    intro size
    by_cases h : Py_IS_ROMAN_DIGIT c = true
    · simp only [scanLoop, h, if_true, List.dropWhile_cons_of_pos, List.takeWhile_cons_of_pos, ih,
        List.length_cons]
      congr 1
      push_cast
      ring
    · simp [scanLoop, h, List.dropWhile_cons_of_neg, List.takeWhile_cons_of_neg]

theorem text_succ (b : Buffer) (k : Nat) : text b (k + 1) = text b k ++ [b k] := by
  simp [text, List.range_succ]

theorem text_length (b : Buffer) (k : Nat) : (text b k).length = k := by
  simp [text]

theorem fromRomanLoop_eq (s : Buffer) : ∀ (k : Nat) (total prev : Int),
    fromRomanLoop s k total prev = (frPair (text s k) (total, prev)).1 := by
  intro k
  induction k with
  | zero => intro total prev; rfl
  | succ k ih =>
    intro total prev
    rw [fromRomanLoop, ih, text_succ, frPair_append]
    rfl

theorem text_cstr_append (run rest : List Nat) : text (cstr (run ++ rest)) run.length = run := by
  apply List.ext_getElem
  · simp [text]
  · intro i h1 h2
    simp only [text, List.getElem_map, List.getElem_range, cstr]
    rw [List.getD_append _ _ _ _ h2, List.getD_eq_getElem _ _ h2]

theorem from_roman_eq (run rest : List Nat) :
    from_roman (cstr (run ++ rest)) run.length = frList run := by
  simp only [from_roman, Int.toNat_ofNat, fromRomanLoop_eq, text_cstr_append, frList]

theorem strncpy_zero (out : List Nat) : strncpy (fun _ => 0) 0 out out.length = cstr out := by
  funext i
  simp only [strncpy, cstr, zero_add, Nat.zero_le, true_and, Nat.sub_zero]
  split
  · rfl
  · rw [List.getD_eq_default _ _ (by omega)]

theorem roman_digit_cases (c : Nat) (h : Py_IS_ROMAN_DIGIT c = true) :
    c = 73 ∨ c = 86 ∨ c = 88 ∨ c = 76 ∨ c = 67 ∨ c = 68 ∨ c = 77
      ∨ c = 105 ∨ c = 118 ∨ c = 120 ∨ c = 108 ∨ c = 99 ∨ c = 100 ∨ c = 109 := by
  simp only [Py_IS_ROMAN_DIGIT, chr, Bool.or_eq_true, beq_iff_eq] at h
  have e : ('I'.toNat = 73 ∧ 'V'.toNat = 86 ∧ 'X'.toNat = 88 ∧ 'L'.toNat = 76 ∧ 'C'.toNat = 67
      ∧ 'D'.toNat = 68 ∧ 'M'.toNat = 77) ∧ ('i'.toNat = 105 ∧ 'v'.toNat = 118 ∧ 'x'.toNat = 120
      ∧ 'l'.toNat = 108 ∧ 'c'.toNat = 99 ∧ 'd'.toNat = 100 ∧ 'm'.toNat = 109) := by decide
  omega

theorem upper_roman_cases (c : Nat) (h : isUpperRoman c = true) :
    c = 73 ∨ c = 86 ∨ c = 88 ∨ c = 76 ∨ c = 67 ∨ c = 68 ∨ c = 77 := by
  simp only [isUpperRoman, chr, Bool.or_eq_true, beq_iff_eq] at h
  have e : 'I'.toNat = 73 ∧ 'V'.toNat = 86 ∧ 'X'.toNat = 88 ∧ 'L'.toNat = 76 ∧ 'C'.toNat = 67
      ∧ 'D'.toNat = 68 ∧ 'M'.toNat = 77 := by decide
  omega

theorem tolower_ne_zero_of_roman (c : Nat) (h : Py_IS_ROMAN_DIGIT c = true) : tolower c ≠ 0 := by
  have := roman_digit_cases c h
  unfold tolower
  split <;> omega

theorem toupper_eq_of_tolower_eq (x y : Nat) (hy : isUpperRoman y = true)
    (h : tolower x = tolower y) : toupper x = y := by
  have := upper_roman_cases y hy
  unfold tolower at h
  unfold toupper
  split at h <;> split at h <;> split <;> omega

theorem tolower_toupper (c : Nat) : tolower (toupper c) = tolower c := by
  unfold tolower toupper
  split_ifs <;> omega

theorem strncasecmpFrom_eq_zero (s1 s2 : Buffer) : ∀ (k i : Nat),
    (∀ j < k, tolower (s1 (i + j)) ≠ 0) →
      (strncasecmpFrom s1 s2 i k = 0 ↔ ∀ j < k, tolower (s1 (i + j)) = tolower (s2 (i + j))) := by
  intro k
  induction k with
  | zero => intro i _; simp [strncasecmpFrom]
  | succ k ih =>
    intro i hnz
    have h0 := hnz 0 (by omega)
    simp only [Nat.add_zero] at h0
    have hrec := ih (i + 1) (fun j hj => by
      have := hnz (j + 1) (by omega)
      rwa [show i + 1 + j = i + (j + 1) by omega])
    simp only [strncasecmpFrom]
    by_cases hc : tolower (s1 i) = tolower (s2 i)
    · simp only [hc, ne_eq, not_true_eq_false, if_false]
      rw [hc] at h0
      simp only [h0, if_false]
      rw [hrec]
      constructor
      · intro h j hj
        cases j with
        | zero => exact hc
        | succ j =>
          have := h j (by omega)
          rwa [show i + 1 + j = i + (j + 1) by omega] at this
      · intro h j hj
        have := h (j + 1) (by omega)
        rwa [show i + (j + 1) = i + 1 + j by omega] at this
    · simp only [ne_eq, hc, not_false_eq_true, if_true]
      constructor
      · intro h; omega
      · intro h; exact absurd (h 0 (by omega)) (by simpa using hc)

theorem upper_roman_ne_zero (c : Nat) (h : isUpperRoman c = true) : c ≠ 0 := by
  have := upper_roman_cases c h
  omega

theorem cstr_lt (l : List Nat) (j : Nat) (h : j < l.length) : cstr l j = l[j] := by
  simp only [cstr]
  exact List.getD_eq_getElem _ _ h

theorem cstr_ge (l : List Nat) (j : Nat) (h : l.length ≤ j) : cstr l j = 0 := by
  simp only [cstr]
  exact List.getD_eq_default _ _ h

theorem cstr_append_lt (run rest : List Nat) (j : Nat) (h : j < run.length) :
    cstr (run ++ rest) j = run[j] := by
  simp only [cstr]
  rw [List.getD_append _ _ _ _ h, List.getD_eq_getElem _ _ h]

/-- The verification step of the decoder accepts exactly when the scanned run,
upper-cased, is the text in the buffer. -/
theorem verify_iff (run rest out : List Nat)
    (hrun : ∀ c ∈ run, Py_IS_ROMAN_DIGIT c = true) (hout : ∀ c ∈ out, isUpperRoman c = true) :
    (cstr out run.length = 0 ∧ strncasecmp (cstr (run ++ rest)) (cstr out) run.length = 0)
      ↔ run.map toupper = out := by
  have hnz : ∀ j < run.length, tolower (cstr (run ++ rest) (0 + j)) ≠ 0 := by
    intro j hj
    rw [Nat.zero_add, cstr_append_lt run rest j hj]
    exact tolower_ne_zero_of_roman _ (hrun _ (List.getElem_mem _))
  unfold strncasecmp
  rw [strncasecmpFrom_eq_zero _ _ _ _ hnz]
  constructor
  · rintro ⟨hz, hcmp⟩
    have hle : out.length ≤ run.length := by
      by_contra hlt
      have hlt : run.length < out.length := by omega
      rw [cstr_lt out _ hlt] at hz
      exact upper_roman_ne_zero _ (hout _ (List.getElem_mem _)) hz
    have heq : out.length = run.length := by
      by_contra hne
      have hlt : out.length < run.length := by omega
      have h1 := hcmp out.length hlt
      have h2 := hnz out.length hlt
      rw [h1, Nat.zero_add, cstr_ge out _ (le_refl _)] at h2
      exact h2 (by decide)
    apply List.ext_getElem
    · simp [heq]
    · intro j h1 h2
      have hj : j < run.length := by simpa using h1
      have hc := hcmp j hj
      rw [Nat.zero_add, cstr_append_lt run rest j hj, cstr_lt out j h2] at hc
      rw [List.getElem_map]
      exact toupper_eq_of_tolower_eq _ _ (hout _ (List.getElem_mem _)) hc
  · intro h
    subst h
    refine ⟨cstr_ge _ _ (by simp), ?_⟩
    intro j hj
    rw [Nat.zero_add, cstr_append_lt run rest j hj, cstr_lt _ j (by simpa using hj),
      List.getElem_map, tolower_toupper]

theorem decoder_eq (ptr : List Nat) :
    Py_from_roman_numerals_to_int ptr
      = some (decodeRun (ptr.takeWhile Py_IS_ROMAN_DIGIT), ptr.dropWhile Py_IS_ROMAN_DIGIT) := by
  have hptr : ptr.takeWhile Py_IS_ROMAN_DIGIT ++ ptr.dropWhile Py_IS_ROMAN_DIGIT = ptr :=
    List.takeWhile_append_dropWhile _ _
  have hrun : ∀ c ∈ ptr.takeWhile Py_IS_ROMAN_DIGIT, Py_IS_ROMAN_DIGIT c = true :=
    fun c hc => List.mem_takeWhile_imp hc
  have hc : cstr ptr
      = cstr (ptr.takeWhile Py_IS_ROMAN_DIGIT ++ ptr.dropWhile Py_IS_ROMAN_DIGIT) := by rw [hptr]
  simp only [Py_from_roman_numerals_to_int, scanLoop_eq, zero_add, Py_MAX_ROMAN_SIZE]
  rw [hc]
  clear hc hptr
  generalize ptr.takeWhile Py_IS_ROMAN_DIGIT = run at hrun ⊢
  generalize ptr.dropWhile Py_IS_ROMAN_DIGIT = rest
  rw [from_roman_eq]
  unfold decodeRun
  by_cases hlen : run.length = 0 ∨ 16 ≤ run.length
  · have hlen2 : (run.length : Int) = 0 ∨ (run.length : Int) ≥ 16 := by omega
    simp only [hlen, hlen2, if_true]
  · have hlen2 : ¬ ((run.length : Int) = 0 ∨ (run.length : Int) ≥ 16) := by omega
    simp only [hlen, hlen2, if_false]
    by_cases hr : 1 ≤ frList run ∧ frList run ≤ 3999
    · have hpl := positional_length (frList run) hr.1 hr.2
      have henc := (encoder_in_range (frList run) (fun _ => 0) 16 hr.1 hr.2).1 (by omega)
      rw [henc, strncpy_zero]
      simp only [Int.toNat_ofNat]
      have hv := verify_iff run rest (positional (frList run)) hrun (positional_upper _)
      by_cases hm : run.map toupper = positional (frList run)
      · have := hv.2 hm
        have hneg : ¬ ((positional (frList run)).length : Int) < 0 := by omega
        simp [hr, hm, this.1, this.2, hneg]
      · have hnv : ¬ (cstr (positional (frList run)) run.length = 0
            ∧ strncasecmp (cstr (run ++ rest)) (cstr (positional (frList run))) run.length = 0) :=
          fun h => hm (hv.1 h)
        have hor : ((positional (frList run)).length : Int) < 0
            ∨ cstr (positional (frList run)) run.length ≠ 0
            ∨ strncasecmp (cstr (run ++ rest)) (cstr (positional (frList run))) run.length ≠ 0 := by
          by_cases h1 : cstr (positional (frList run)) run.length = 0
          · by_cases h2 : strncasecmp (cstr (run ++ rest)) (cstr (positional (frList run)))
                run.length = 0
            · exact absurd ⟨h1, h2⟩ hnv
            · exact Or.inr (Or.inr h2)
          · exact Or.inr (Or.inl h1)
        simp only [hor, if_true, hm, and_false, if_false]
    · have henc := encoder_out_of_range (frList run) (fun _ => 0) 16 (by omega)
      rw [henc]
      have hr2 : ¬ (1 ≤ frList run ∧ frList run ≤ 3999 ∧
          run.map toupper = positional (frList run)) := fun h => hr ⟨h.1, h.2.1⟩
      simp [hr2]

theorem text_strncpy (b : Buffer) (out : List Nat) :
    text (strncpy b 0 out out.length) out.length = out := by
  apply List.ext_getElem
  · simp [text]
  · intro i h1 h2
    simp only [text, List.getElem_map, List.getElem_range, strncpy, zero_add, Nat.zero_le,
      true_and, h2, if_true, Nat.sub_zero]
    exact List.getD_eq_getElem _ _ h2

/-- With capacity 16 the encoder succeeds on its whole range. -/
theorem encoder_16 (n : Int) (numeral : Buffer) (h1 : 1 ≤ n) (h2 : n ≤ 3999) :
    Py_to_roman_numerals_from_int n numeral Py_MAX_ROMAN_SIZE
      = some (((positional n).length : Int),
          strncpy numeral 0 (positional n) (positional n).length) := by
  have hl := positional_length n h1 h2
  exact (encoder_in_range n numeral Py_MAX_ROMAN_SIZE h1 h2).1
    (by simp only [Py_MAX_ROMAN_SIZE]; omega)

theorem encode_in_range (n : Int) (h1 : 1 ≤ n) (h2 : n ≤ 3999) :
    encode n = some (positional n) := by
  have hneg : ¬ ((positional n).length : Int) < 0 := by omega
  simp only [encode, encoder_16 n _ h1 h2, hneg, if_false, Int.toNat_ofNat, text_strncpy]

theorem encode_out_of_range (n : Int) (h : n ≤ 0 ∨ 3999 < n) : encode n = none := by
  simp only [encode, encoder_out_of_range n _ _ h]
  rfl

theorem toupper_upper_roman (c : Nat) (h : isUpperRoman c = true) : toupper c = c := by
  have := upper_roman_cases c h
  unfold toupper
  split <;> omega

theorem roman_of_upper_roman (c : Nat) (h : isUpperRoman c = true) :
    Py_IS_ROMAN_DIGIT c = true := by
  have := upper_roman_cases c h
  rcases this with h | h | h | h | h | h | h <;> subst h <;> decide

theorem map_toupper_positional (n : Int) : (positional n).map toupper = positional n := by
  conv_rhs => rw [← List.map_id (positional n)]
  apply List.map_congr_left
  intro c hc
  exact toupper_upper_roman c (positional_upper n c hc)

/-- The decoder's verdict on the numeral of `n` is `n`. -/
theorem decodeRun_positional (n : Int) (h1 : 1 ≤ n) (h2 : n ≤ 3999) :
    decodeRun (positional n) = n := by
  have hl := positional_length n h1 h2
  have hlen : ¬ ((positional n).length = 0 ∨ 16 ≤ (positional n).length) := by omega
  have hf := frList_positional n (by omega) h2
  simp only [decodeRun, hlen, if_false, hf, map_toupper_positional, h1, h2, and_self, if_true]

/-- Scanning a run of Roman digits that is followed by the end of the input or
by another character. -/
theorem scan_run (run rest : List Nat) (hrun : ∀ c ∈ run, Py_IS_ROMAN_DIGIT c = true)
    (hrest : ∀ c, rest.head? = some c → Py_IS_ROMAN_DIGIT c = false) :
    (run ++ rest).takeWhile Py_IS_ROMAN_DIGIT = run
      ∧ (run ++ rest).dropWhile Py_IS_ROMAN_DIGIT = rest := by
  have ht : rest.takeWhile Py_IS_ROMAN_DIGIT = [] := by
    cases rest with
    | nil => rfl
    | cons c r =>
      have := hrest c rfl
      simp [List.takeWhile_cons, this]
  have hd : rest.dropWhile Py_IS_ROMAN_DIGIT = rest := by
    cases rest with
    | nil => rfl
    | cons c r =>
      have := hrest c rfl
      simp [List.dropWhile_cons, this]
  constructor
  · rw [List.takeWhile_append_of_pos hrun, ht, List.append_nil]
  · rw [List.dropWhile_append_of_pos hrun, hd]

/-- The decoder accepts only a run that is the numeral of the returned value. -/
theorem decodeRun_nonneg (run : List Nat) (h : 0 ≤ decodeRun run) :
    1 ≤ decodeRun run ∧ decodeRun run ≤ 3999 ∧ decodeRun run = frList run
      ∧ run.map toupper = positional (decodeRun run) := by
  unfold decodeRun at h ⊢
  split at h
  · omega
  · split at h
    · rename_i h1 h2
      rw [if_neg h1, if_pos h2]
      exact ⟨h2.1, h2.2.1, rfl, h2.2.2⟩
    · omega

theorem decodeRun_neg_or (run : List Nat) : decodeRun run = -1 ∨ 1 ≤ decodeRun run := by
  unfold decodeRun
  split
  · exact Or.inl rfl
  · split
    · rename_i h; exact Or.inr h.1
    · exact Or.inl rfl

/-- C1. Round trip: for every integer `n` with `1 ≤ n ≤ 3999`, encoding `n` into a
capacity-16 buffer succeeds, and decoding the produced text, followed by the
end of the input or by any character that is not a Roman digit, returns
exactly `n` (and leaves the cursor right after the numeral). -/
theorem roundtrip_decode_encode (n : Int) (h1 : 1 ≤ n) (h2 : n ≤ 3999) (numeral : Buffer) :
    ∃ count buf,
      Py_to_roman_numerals_from_int n numeral Py_MAX_ROMAN_SIZE = some (count, buf)
        ∧ 0 ≤ count
        ∧ ∀ rest : List Nat, (∀ c, rest.head? = some c → Py_IS_ROMAN_DIGIT c = false) →
            Py_from_roman_numerals_to_int (text buf count.toNat ++ rest) = some (n, rest) := by
  refine ⟨_, _, encoder_16 n numeral h1 h2, by omega, ?_⟩
  intro rest hrest
  rw [Int.toNat_ofNat, text_strncpy, decoder_eq]
  obtain ⟨ht, hd⟩ := scan_run (positional n) rest
    (fun c hc => roman_of_upper_roman c (positional_upper n c hc)) hrest
  rw [ht, hd, decodeRun_positional n h1 h2]

/-- Instance of C1 at `n = 1`: the encoder writes one character and the decoder
reads it back as 1. -/
theorem roundtrip_decode_encode_witness :
    (1 : Int) ≤ 1 ∧ (1 : Int) ≤ 3999 ∧
      ∃ count buf,
        Py_to_roman_numerals_from_int 1 (fun _ => 0) Py_MAX_ROMAN_SIZE = some (count, buf)
          ∧ 0 ≤ count
          ∧ Py_from_roman_numerals_to_int (text buf count.toNat ++ str "!") = some (1, str "!") := by
  obtain ⟨count, buf, he, hc, hd⟩ :=
    roundtrip_decode_encode 1 (by decide) (by decide) (fun _ => 0)
  exact ⟨by decide, by decide, count, buf, he, hc, hd (str "!") (by decide)⟩

/-- C2. Soundness of acceptance: if the decoder returns a non-negative value `v`,
then `1 ≤ v ≤ 3999` and the encoder's output for `v` has exactly the length of
the scanned digit run and equals that run, upper-cased, character for
character.  In particular the decoder rejects whenever re-encoding the candidate
value gives a text shorter or longer than the scanned run. -/
theorem accepted_is_canonical (ptr : List Nat) :
    (∀ (v : Int) (p : List Nat), Py_from_roman_numerals_to_int ptr = some (v, p) → 0 ≤ v →
      1 ≤ v ∧ v ≤ 3999 ∧
        ∃ buf, Py_to_roman_numerals_from_int v (fun _ => 0) Py_MAX_ROMAN_SIZE
              = some (((ptr.takeWhile Py_IS_ROMAN_DIGIT).length : Int), buf)
          ∧ text buf (ptr.takeWhile Py_IS_ROMAN_DIGIT).length
              = (ptr.takeWhile Py_IS_ROMAN_DIGIT).map toupper)
    ∧ (∀ (count : Int) (buf : Buffer),
        Py_to_roman_numerals_from_int
            (from_roman (cstr ptr) (ptr.takeWhile Py_IS_ROMAN_DIGIT).length)
            (fun _ => 0) Py_MAX_ROMAN_SIZE = some (count, buf) →
        count ≠ (ptr.takeWhile Py_IS_ROMAN_DIGIT).length →
        ∃ p, Py_from_roman_numerals_to_int ptr = some (-1, p)) := by
  have key : ∀ v : Int, decodeRun (ptr.takeWhile Py_IS_ROMAN_DIGIT) = v → 0 ≤ v →
      1 ≤ v ∧ v ≤ 3999 ∧ v = frList (ptr.takeWhile Py_IS_ROMAN_DIGIT) ∧
        Py_to_roman_numerals_from_int v (fun _ => 0) Py_MAX_ROMAN_SIZE
          = some (((ptr.takeWhile Py_IS_ROMAN_DIGIT).length : Int),
              strncpy (fun _ => 0) 0 ((ptr.takeWhile Py_IS_ROMAN_DIGIT).map toupper)
                (ptr.takeWhile Py_IS_ROMAN_DIGIT).length) := by
    intro v hv h0
    subst hv
    obtain ⟨a1, a2, a3, a4⟩ := decodeRun_nonneg _ h0
    refine ⟨a1, a2, a3, ?_⟩
    rw [encoder_16 _ _ a1 a2, ← a4, List.length_map]
  constructor
  · intro v p h h0
    rw [decoder_eq] at h
    simp only [Option.some.injEq, Prod.mk.injEq] at h
    obtain ⟨a1, a2, -, a4⟩ := key v h.1 h0
    refine ⟨a1, a2, _, a4, ?_⟩
    have := text_strncpy (fun _ => 0) ((ptr.takeWhile Py_IS_ROMAN_DIGIT).map toupper)
    rwa [List.length_map] at this
  · intro count buf henc hne
    rw [decoder_eq]
    rcases decodeRun_neg_or (ptr.takeWhile Py_IS_ROMAN_DIGIT) with hneg | hpos
    · exact ⟨_, by rw [hneg]⟩
    · exfalso
      obtain ⟨-, -, a3, a4⟩ := key _ rfl (by omega)
      have hfr : from_roman (cstr ptr) (ptr.takeWhile Py_IS_ROMAN_DIGIT).length
          = frList (ptr.takeWhile Py_IS_ROMAN_DIGIT) := by
        have := from_roman_eq (ptr.takeWhile Py_IS_ROMAN_DIGIT)
          (ptr.dropWhile Py_IS_ROMAN_DIGIT)
        rwa [List.takeWhile_append_dropWhile] at this
      rw [hfr, ← a3, a4] at henc
      simp only [Option.some.injEq, Prod.mk.injEq] at henc
      exact hne henc.1.symm

/-- Instance of C2 on the input `xiv`: the decoder returns 14, and the encoder's
output for 14 is `XIV`, the upper-cased run of three characters. -/
theorem accepted_is_canonical_witness :
    Py_from_roman_numerals_to_int (str "xiv") = some (14, []) ∧ (0 : Int) ≤ 14 ∧
      ((1 : Int) ≤ 14 ∧ (14 : Int) ≤ 3999 ∧
        ∃ buf, Py_to_roman_numerals_from_int 14 (fun _ => 0) Py_MAX_ROMAN_SIZE = some (3, buf)
          ∧ text buf 3 = str "XIV") :=
  ⟨by decide, by decide,
    (accepted_is_canonical (str "xiv")).1 14 [] (by decide) (by decide)⟩

/-- A text that the positional numeral of its relaxed sum does not reproduce is
the encoder's output for no integer. -/
theorem encode_ne_of_positional_ne (s : List Nat) (hs : positional (frList s) ≠ s) :
    ∀ n : Int, 1 ≤ n → n ≤ 3999 → encode n ≠ some s := by
  intro n h1 h2 h
  rw [encode_in_range n h1 h2] at h
  simp only [Option.some.injEq] at h
  apply hs
  rw [← h, frList_positional n (by omega) h2]

/-- C3, as stated, fails: `xiv` is the encoder's output for no integer in
`[1, 3999]` (the encoder writes upper-case letters only), yet the decoder
accepts it and returns 14. -/
theorem rejection_law_counterexample :
    (∀ n : Int, 1 ≤ n → n ≤ 3999 → encode n ≠ some (str "xiv"))
      ∧ Py_from_roman_numerals_to_int (str "xiv") = some (14, []) ∧ ¬ (14 : Int) < 0 :=
  ⟨encode_ne_of_positional_ne (str "xiv") (by decide), by decide, by decide⟩

/-- C3, amended. Rejection law: for every input text whose maximal leading run of
Roman digit characters, upper-cased, is not the encoder's output for any integer
in `[1, 3999]`, the decoder fails: it returns a negative value (namely -1). -/
theorem rejection_law (s : List Nat)
    (h : ∀ n : Int, 1 ≤ n → n ≤ 3999 →
      encode n ≠ some ((s.takeWhile Py_IS_ROMAN_DIGIT).map toupper)) :
    ∃ v p, Py_from_roman_numerals_to_int s = some (v, p) ∧ v < 0 ∧ v = -1 := by
  rw [decoder_eq]
  rcases decodeRun_neg_or (s.takeWhile Py_IS_ROMAN_DIGIT) with hneg | hpos
  · exact ⟨_, _, rfl, by omega, hneg⟩
  · exfalso
    obtain ⟨a1, a2, -, a4⟩ := decodeRun_nonneg (s.takeWhile Py_IS_ROMAN_DIGIT) (by omega)
    exact h _ a1 a2 (by rw [encode_in_range _ a1 a2, a4])

/-- Instances of the amended C3: `IIII`, `VV` and `IC` are rejected. -/
theorem rejection_law_witness :
    (∃ v p, Py_from_roman_numerals_to_int (str "IIII") = some (v, p) ∧ v < 0 ∧ v = -1)
      ∧ (∃ v p, Py_from_roman_numerals_to_int (str "VV") = some (v, p) ∧ v < 0 ∧ v = -1)
      ∧ (∃ v p, Py_from_roman_numerals_to_int (str "IC") = some (v, p) ∧ v < 0 ∧ v = -1) :=
  ⟨rejection_law (str "IIII") (encode_ne_of_positional_ne (str "IIII") (by decide)),
    rejection_law (str "VV") (encode_ne_of_positional_ne (str "VV") (by decide)),
    rejection_law (str "IC") (encode_ne_of_positional_ne (str "IC") (by decide))⟩

/-- C4. The encoder computes the standard positional Roman numeral: for every `n`
in `[1, 3999]` and capacity 16, the text it writes is `M` repeated `n / 1000`
times, then the hundreds numeral at index `(n / 100) mod 10`, the tens numeral
at index `(n / 10) mod 10` and the units numeral at index `n mod 10`; the
returned count is the length of that text. -/
theorem encoder_positional (n : Int) (h1 : 1 ≤ n) (h2 : n ≤ 3999) (numeral : Buffer) :
    ∃ buf,
      Py_to_roman_numerals_from_int n numeral Py_MAX_ROMAN_SIZE
          = some (((positional n).length : Int), buf)
        ∧ text buf (positional n).length
            = List.replicate (n / 1000).toNat (chr 'M')
              ++ (hundredsTable.getD (n / 100 % 10).toNat []
              ++ (tensTable.getD (n / 10 % 10).toNat []
              ++ unitsTable.getD (n % 10).toNat [])) :=
  ⟨_, encoder_16 n numeral h1 h2, text_strncpy _ _⟩

/-- Instances of C4: 3999 gives `MMMCMXCIX` (9 characters) and 1 gives `I`. -/
theorem encoder_positional_witness :
    (∃ buf, Py_to_roman_numerals_from_int 3999 (fun _ => 0) Py_MAX_ROMAN_SIZE = some (9, buf)
        ∧ text buf 9 = str "MMMCMXCIX")
      ∧ (∃ buf, Py_to_roman_numerals_from_int 1 (fun _ => 0) Py_MAX_ROMAN_SIZE = some (1, buf)
        ∧ text buf 1 = str "I") :=
  ⟨encoder_positional 3999 (by decide) (by decide) (fun _ => 0),
    encoder_positional 1 (by decide) (by decide) (fun _ => 0)⟩

/-- C5. Encoder range check: for every integer `n` and capacity `size ≥ 16` the
encoder returns, and it returns -1 if and only if `n ≤ 0` or `n > 3999`; when
`n` is out of range it returns -1 for every capacity and leaves the buffer as
it was. -/
theorem encoder_range_check (n : Int) (numeral : Buffer) (size : Int) (hs : 16 ≤ size) :
    (∃ ret buf, Py_to_roman_numerals_from_int n numeral size = some (ret, buf)
        ∧ (ret = -1 ↔ (n ≤ 0 ∨ n > 3999)))
      ∧ ((n ≤ 0 ∨ n > 3999) → ∀ (size1 : Int) (numeral1 : Buffer),
          Py_to_roman_numerals_from_int n numeral1 size1 = some (-1, numeral1)) := by
  constructor
  · by_cases hr : n ≤ 0 ∨ n > 3999
    · exact ⟨-1, numeral, encoder_out_of_range n numeral size (by omega), by simp [hr]⟩
    · have h1 : 1 ≤ n := by omega
      have h2 : n ≤ 3999 := by omega
      have hl := positional_length n h1 h2
      refine ⟨_, _, (encoder_in_range n numeral size h1 h2).1 (by omega), ?_⟩
      constructor
      · intro h; omega
      · intro h; exact absurd h hr
  · intro hr size1 numeral1
    exact encoder_out_of_range n numeral1 size1 (by omega)

/-- Instances of C5 with capacity 16: 0, -1 and 4000 fail and leave the buffer
untouched, 1 and 3999 do not return -1. -/
theorem encoder_range_check_witness :
    (16 : Int) ≤ 16
      ∧ Py_to_roman_numerals_from_int 0 (fun _ => 0) 16 = some (-1, fun _ => 0)
      ∧ Py_to_roman_numerals_from_int (-1) (fun _ => 0) 16 = some (-1, fun _ => 0)
      ∧ Py_to_roman_numerals_from_int 4000 (fun _ => 0) 16 = some (-1, fun _ => 0)
      ∧ (∃ ret buf, Py_to_roman_numerals_from_int 1 (fun _ => 0) 16 = some (ret, buf)
          ∧ (ret = -1 ↔ ((1 : Int) ≤ 0 ∨ (1 : Int) > 3999)))
      ∧ (∃ ret buf, Py_to_roman_numerals_from_int 3999 (fun _ => 0) 16 = some (ret, buf)
          ∧ (ret = -1 ↔ ((3999 : Int) ≤ 0 ∨ (3999 : Int) > 3999))) :=
  ⟨by decide,
    (encoder_range_check 0 (fun _ => 0) 16 (by decide)).2 (by decide) 16 (fun _ => 0),
    (encoder_range_check (-1) (fun _ => 0) 16 (by decide)).2 (by decide) 16 (fun _ => 0),
    (encoder_range_check 4000 (fun _ => 0) 16 (by decide)).2 (by decide) 16 (fun _ => 0),
    (encoder_range_check 1 (fun _ => 0) 16 (by decide)).1,
    (encoder_range_check 3999 (fun _ => 0) 16 (by decide)).1⟩

/-- C7, as worded, fails: for `n = 1` the accumulated output length is 1 after the
only append step and never exceeds the capacity 1, yet the encoder fails with
capacity 1. -/
theorem capacity_check_counterexample :
    appendLengths 1 = [1] ∧ (∀ c ∈ appendLengths 1, ¬ (1 : Int) < c)
      ∧ ∃ buf, Py_to_roman_numerals_from_int 1 (fun _ => 0) 1 = some (-1, buf) :=
  ⟨by decide, by decide, ⟨_, rfl⟩⟩

/-- C7, amended. Capacity check: for every `n` in `[1, 3999]` and every capacity
`size`, the encoder fails for lack of space if and only if the accumulated
output length reaches or exceeds `size` at some append step (one slot stays
reserved, so a capacity equal to the numeral's length is not enough). -/
theorem capacity_check (n : Int) (h1 : 1 ≤ n) (h2 : n ≤ 3999) (numeral : Buffer) (size : Int) :
    (∃ buf, Py_to_roman_numerals_from_int n numeral size = some (-1, buf))
      ↔ ∃ c ∈ appendLengths n, size ≤ c := by
  have hacc := appendAll_fail_iff_accum size (greedy map n) ⟨n, 0, numeral⟩
  obtain ⟨hok, hfail⟩ := encoder_in_range n numeral size h1 h2
  constructor
  · rintro ⟨buf, he⟩
    have hge : size ≤ ((positional n).length : Int) := by
      by_contra hlt
      rw [hok (by omega)] at he
      simp only [Option.some.injEq, Prod.mk.injEq] at he
      omega
    have htot : totalSize (greedy map n) = (positional n).length := by
      rw [totalSize_eq_length _ (greedy_size_eq n), symbols_greedy_map]
    have hne : greedy map n ≠ [] := by
      intro h
      have hl := positional_length n h1 h2
      rw [h] at htot
      simp only [totalSize] at htot
      omega
    exact hacc.1 (appendAll_fail size _ ⟨n, 0, numeral⟩ hne (by simp only [htot]; omega))
  · intro h
    obtain ⟨b, hb⟩ := hacc.2 h
    exact ⟨b, by rw [encoder_eq n numeral size h1 h2, hb]⟩

/-- Instance of the amended C7: for 14 (`XIV`) the accumulated lengths are 1 and
3, and the encoder fails with capacity 3. -/
theorem capacity_check_witness :
    (1 : Int) ≤ 14 ∧ (14 : Int) ≤ 3999 ∧ appendLengths 14 = [1, 3]
      ∧ ∃ buf, Py_to_roman_numerals_from_int 14 (fun _ => 0) 3 = some (-1, buf) :=
  ⟨by decide, by decide, by decide,
    (capacity_check 14 (by decide) (by decide) (fun _ => 0) 3).2 ⟨3, by decide, by decide⟩⟩

/-- C8. Length ceiling: for every `n` in `[1, 3999]` the encoder, given capacity
`Py_MAX_ROMAN_SIZE = 16`, succeeds; the numeral it produces, the text at buffer
offsets `0 .. count-1`, is the positional numeral of `n` and has between 1 and
15 characters, every one of them an upper-case Roman digit; nothing is written
at or after offset `count`, so 16 characters of buffer suffice; the numeral has
15 characters for `n = 3888` (`MMMDCCCLXXXVIII`) and for no other `n`. -/
theorem length_ceiling (n : Int) (h1 : 1 ≤ n) (h2 : n ≤ 3999) (numeral : Buffer) :
    ∃ count buf,
      Py_to_roman_numerals_from_int n numeral Py_MAX_ROMAN_SIZE = some (count, buf)
        ∧ 1 ≤ count ∧ count ≤ 15 ∧ (count = 15 ↔ n = 3888)
        ∧ text buf count.toNat = positional n
        ∧ ((text buf count.toNat).length : Int) = count
        ∧ (∀ c ∈ text buf count.toNat, isUpperRoman c = true)
        ∧ (∀ i, count.toNat ≤ i → buf i = numeral i)
        ∧ (n = 3888 → text buf count.toNat = str "MMMDCCCLXXXVIII") := by
  have hl := positional_length n h1 h2
  have ht : text (strncpy numeral 0 (positional n) (positional n).length)
      ((positional n).length : Int).toNat = positional n := by
    rw [Int.toNat_ofNat, text_strncpy]
  refine ⟨_, _, encoder_16 n numeral h1 h2, by omega, by omega, ?_, ht, ?_, ?_, ?_, ?_⟩
  · constructor
    · intro h; exact hl.2.2.1 (by omega)
    · intro h; have := hl.2.2.2 h; omega
  · rw [ht]
  · rw [ht]; exact positional_upper n
  · intro i hi
    rw [Int.toNat_ofNat] at hi
    have hno : ¬ (0 ≤ i ∧ i < 0 + (positional n).length) := by omega
    simp only [strncpy, hno, if_false]
  · intro h
    rw [ht, h]
    decide

/-- Instance of C8 at `n = 3888`: the encoder returns 15, the buffer holds
`MMMDCCCLXXXVIII` at offsets 0 to 14, and offset 15 of the zeroed buffer is
still 0. -/
theorem length_ceiling_witness :
    (1 : Int) ≤ 3888 ∧ (3888 : Int) ≤ 3999
      ∧ ∃ buf, Py_to_roman_numerals_from_int 3888 (fun _ => 0) Py_MAX_ROMAN_SIZE
          = some (15, buf)
        ∧ text buf 15 = str "MMMDCCCLXXXVIII"
        ∧ (text buf 15).length = 15
        ∧ buf 15 = 0 := by
  obtain ⟨count, buf, he, -, -, hiff, -, -, -, hframe, h3888⟩ :=
    length_ceiling 3888 (by decide) (by decide) (fun _ => 0)
  have hc : count = 15 := hiff.2 rfl
  subst hc
  have ht : text buf 15 = str "MMMDCCCLXXXVIII" := h3888 rfl
  exact ⟨by decide, by decide, buf, he, ht, by rw [ht]; decide, hframe 15 (by decide)⟩

theorem char_codes :
    ('I'.toNat = 73 ∧ 'V'.toNat = 86 ∧ 'X'.toNat = 88 ∧ 'L'.toNat = 76 ∧ 'C'.toNat = 67
      ∧ 'D'.toNat = 68 ∧ 'M'.toNat = 77) ∧ ('i'.toNat = 105 ∧ 'v'.toNat = 118 ∧ 'x'.toNat = 120
      ∧ 'l'.toNat = 108 ∧ 'c'.toNat = 99 ∧ 'd'.toNat = 100 ∧ 'm'.toNat = 109) := by
  decide

theorem roman_digit_iff_mem (c : Nat) :
    Py_IS_ROMAN_DIGIT c = true ↔ c ∈ str "IVXLCDMivxlcdm" := by
  have e : str "IVXLCDMivxlcdm"
      = [73, 86, 88, 76, 67, 68, 77, 105, 118, 120, 108, 99, 100, 109] := by decide
  have hc := char_codes
  rw [e]
  simp only [Py_IS_ROMAN_DIGIT, chr, Bool.or_eq_true, beq_iff_eq, List.mem_cons,
    List.mem_singleton, List.not_mem_nil, or_false]
  omega

theorem roman_digit_toupper (c : Nat) : Py_IS_ROMAN_DIGIT c = isUpperRoman (toupper c) := by
  have hc := char_codes
  rw [Bool.eq_iff_iff]
  simp only [Py_IS_ROMAN_DIGIT, isUpperRoman, chr, Bool.or_eq_true, beq_iff_eq, toupper]
  split_ifs <;> omega

theorem roman_digit_congr (a b : Nat) (h : toupper a = toupper b) :
    Py_IS_ROMAN_DIGIT a = Py_IS_ROMAN_DIGIT b := by
  rw [roman_digit_toupper a, roman_digit_toupper b, h]

theorem roman_numeral_value_congr (a b : Nat) (h : toupper a = toupper b) :
    roman_numeral_value a = roman_numeral_value b := by
  simp only [roman_numeral_value, h]

theorem sameUpToCase_takeWhile (s t : List Nat) (h : SameUpToCase s t) :
    SameUpToCase (s.takeWhile Py_IS_ROMAN_DIGIT) (t.takeWhile Py_IS_ROMAN_DIGIT) := by
  unfold SameUpToCase at h ⊢
  induction h with
  | nil => exact List.Forall₂.nil
  | @cons a b l1 l2 hab _ ih =>
    have hr := roman_digit_congr a b hab
    by_cases hb : Py_IS_ROMAN_DIGIT b = true
    · rw [hb] at hr
      rw [List.takeWhile_cons_of_pos hr, List.takeWhile_cons_of_pos hb]
      exact List.Forall₂.cons hab ih
    · rw [Bool.not_eq_true] at hb
      rw [hb] at hr
      rw [List.takeWhile_cons_of_neg (by simp [hr]), List.takeWhile_cons_of_neg (by simp [hb])]
      exact List.Forall₂.nil

theorem sameUpToCase_map (s t : List Nat) (h : SameUpToCase s t) :
    s.map toupper = t.map toupper := by
  unfold SameUpToCase at h
  induction h with
  | nil => rfl
  | cons hab _ ih => simp only [List.map_cons, hab, ih]

theorem sameUpToCase_frPair (s t : List Nat) (h : SameUpToCase s t) (x : Int × Int) :
    frPair s x = frPair t x := by
  unfold SameUpToCase at h
  induction h with
  | nil => rfl
  | @cons a b l1 l2 hab _ ih =>
    show frStep a (frPair l1 x) = frStep b (frPair l2 x)
    rw [ih]
    simp only [frStep, roman_numeral_value_congr a b hab]

theorem sameUpToCase_decodeRun (s t : List Nat) (h : SameUpToCase s t) :
    decodeRun s = decodeRun t := by
  have hl : s.length = t.length := List.Forall₂.length_eq h
  have hm := sameUpToCase_map s t h
  have hf : frList s = frList t := by
    simp only [frList, sameUpToCase_frPair s t h]
  simp only [decodeRun, hl, hm, hf]

theorem dropWhile_eq_drop (s : List Nat) :
    s.dropWhile Py_IS_ROMAN_DIGIT = s.drop (s.takeWhile Py_IS_ROMAN_DIGIT).length := by
  conv_rhs => arg 2; rw [← List.takeWhile_append_dropWhile Py_IS_ROMAN_DIGIT s]
  rw [List.drop_left]

/-- C9. Cursor advancement: for every input text the decoder returns and leaves
the cursor exactly past the maximal prefix of characters in
`IVXLCDMivxlcdm`: the text is that run followed by what the cursor points to,
every character of the run is a Roman digit, and the character under the cursor,
if any, is not.  On `IIX` the call fails and the cursor has moved past all three
characters. -/
theorem cursor_advancement :
    (∀ ptr : List Nat, ∃ v run rest,
      Py_from_roman_numerals_to_int ptr = some (v, rest)
        ∧ ptr = run ++ rest
        ∧ (∀ c ∈ run, c ∈ str "IVXLCDMivxlcdm")
        ∧ (∀ c, rest.head? = some c → c ∉ str "IVXLCDMivxlcdm"))
      ∧ Py_from_roman_numerals_to_int (str "IIX") = some (-1, (str "IIX").drop 3) := by
  constructor
  · intro ptr
    refine ⟨_, ptr.takeWhile Py_IS_ROMAN_DIGIT, ptr.dropWhile Py_IS_ROMAN_DIGIT,
      decoder_eq ptr, (List.takeWhile_append_dropWhile _ _).symm, ?_, ?_⟩
    · intro c hc
      exact (roman_digit_iff_mem c).1 (List.mem_takeWhile_imp hc)
    · intro c hc hmem
      have hp := (roman_digit_iff_mem c).2 hmem
      cases hd : ptr.dropWhile Py_IS_ROMAN_DIGIT with
      | nil => rw [hd] at hc; cases hc
      | cons a l =>
        rw [hd] at hc
        simp only [List.head?_cons, Option.some.injEq] at hc
        subst hc
        have := List.head_dropWhile_not Py_IS_ROMAN_DIGIT ptr (by rw [hd]; simp)
        simp only [hd, List.head_cons] at this
        rw [hp] at this
        exact absurd this (by decide)
  · decide

/-- Instance of C9 on `IIX!`: the decoder returns -1 and the cursor is left on the
fourth character. -/
theorem cursor_advancement_witness :
    Py_from_roman_numerals_to_int (str "IIX!") = some (-1, str "!")
      ∧ ∃ v run rest, Py_from_roman_numerals_to_int (str "IIX!") = some (v, rest)
        ∧ str "IIX!" = run ++ rest
        ∧ (∀ c ∈ run, c ∈ str "IVXLCDMivxlcdm")
        ∧ (∀ c, rest.head? = some c → c ∉ str "IVXLCDMivxlcdm") :=
  ⟨by decide, cursor_advancement.1 (str "IIX!")⟩

/-- C10. Case-insensitivity: changing the case of any letters of the input text
changes neither the value the decoder returns nor how far it advances the
cursor; in particular every upper-, lower- or mixed-case spelling of the
encoder's output for `n` in `[1, 3999]` decodes to `n`. -/
theorem case_insensitive (s : List Nat) :
    (∀ t, SameUpToCase s t →
      ∃ v k, Py_from_roman_numerals_to_int s = some (v, s.drop k)
        ∧ Py_from_roman_numerals_to_int t = some (v, t.drop k) ∧ k ≤ s.length)
      ∧ (∀ n : Int, 1 ≤ n → n ≤ 3999 → ∀ out, encode n = some out → SameUpToCase s out →
          Py_from_roman_numerals_to_int s = some (n, [])) := by
  have part1 : ∀ t, SameUpToCase s t →
      decodeRun (s.takeWhile Py_IS_ROMAN_DIGIT) = decodeRun (t.takeWhile Py_IS_ROMAN_DIGIT)
        ∧ (s.takeWhile Py_IS_ROMAN_DIGIT).length = (t.takeWhile Py_IS_ROMAN_DIGIT).length := by
    intro t h
    have hrun := sameUpToCase_takeWhile s t h
    exact ⟨sameUpToCase_decodeRun _ _ hrun, List.Forall₂.length_eq hrun⟩
  constructor
  · intro t h
    obtain ⟨hv, hk⟩ := part1 t h
    refine ⟨decodeRun (s.takeWhile Py_IS_ROMAN_DIGIT), (s.takeWhile Py_IS_ROMAN_DIGIT).length,
      ?_, ?_, ?_⟩
    · rw [decoder_eq, dropWhile_eq_drop]
    · rw [decoder_eq, dropWhile_eq_drop, hv, hk]
    · have hlen := congrArg List.length (List.takeWhile_append_dropWhile Py_IS_ROMAN_DIGIT s)
      rw [List.length_append] at hlen
      omega
  · intro n h1 h2 out he h
    rw [encode_in_range n h1 h2] at he
    simp only [Option.some.injEq] at he
    subst he
    obtain ⟨hv, hk⟩ := part1 _ h
    obtain ⟨ht, -⟩ := scan_run (positional n) []
      (fun c hc => roman_of_upper_roman c (positional_upper n c hc)) (by simp)
    rw [List.append_nil] at ht
    rw [ht] at hv hk
    rw [decoder_eq, hv, decodeRun_positional n h1 h2, dropWhile_eq_drop, hk,
      ← List.Forall₂.length_eq h, List.drop_length]

/-- Instance of C10: `xiv` and `XIV` differ only in case, `XIV` is the encoder's
output for 14, and `xiv` decodes to 14. -/
theorem case_insensitive_witness :
    SameUpToCase (str "xiv") (str "XIV") ∧ encode 14 = some (str "XIV")
      ∧ Py_from_roman_numerals_to_int (str "xiv") = some (14, []) := by
  have hs : SameUpToCase (str "xiv") (str "XIV") :=
    List.Forall₂.cons (by decide) (List.Forall₂.cons (by decide)
      (List.Forall₂.cons (by decide) List.Forall₂.nil))
  have he : encode 14 = some (str "XIV") := by
    rw [encode_in_range 14 (by decide) (by decide)]
    decide
  exact ⟨hs, he, (case_insensitive (str "xiv")).2 14 (by decide) (by decide) _ he hs⟩

theorem decodeRun_bad_length (run : List Nat) (h : run.length = 0 ∨ 16 ≤ run.length) :
    decodeRun run = -1 := by
  simp only [decodeRun, h, if_true]

/-- Decoding the numeral of `n`, alone in the input, gives `n`. -/
theorem decode_positional (n : Int) (h1 : 1 ≤ n) (h2 : n ≤ 3999) :
    Py_from_roman_numerals_to_int (positional n) = some (n, []) := by
  obtain ⟨ht, hd⟩ := scan_run (positional n) []
    (fun c hc => roman_of_upper_roman c (positional_upper n c hc)) (by simp)
  rw [List.append_nil] at ht hd
  rw [decoder_eq, ht, hd, decodeRun_positional n h1 h2]

/-- C11. Decoder length checks: the decoder fails (returns -1) for every input
whose scanned digit run has length 0 and for every input whose scanned digit
run has length at least `Py_MAX_ROMAN_SIZE` (16); a run of exactly 15
characters passes the length check: `MMMDCCCLXXXVIII` decodes to 3888. -/
theorem decoder_length_checks :
    (∀ ptr : List Nat, (scanLoop ptr 0).2 = 0 ∨ Py_MAX_ROMAN_SIZE ≤ (scanLoop ptr 0).2 →
        Py_from_roman_numerals_to_int ptr = some (-1, (scanLoop ptr 0).1))
      ∧ (∀ ptr : List Nat, (scanLoop ptr 0).2 = (ptr.takeWhile Py_IS_ROMAN_DIGIT).length)
      ∧ (str "MMMDCCCLXXXVIII").length = 15
      ∧ Py_from_roman_numerals_to_int (str "MMMDCCCLXXXVIII") = some (3888, []) := by
  refine ⟨?_, ?_, by decide, ?_⟩
  · intro ptr h
    rw [scanLoop_eq] at h ⊢
    simp only [zero_add, Py_MAX_ROMAN_SIZE] at h ⊢
    rw [decoder_eq, decodeRun_bad_length _ (by omega)]
  · intro ptr
    rw [scanLoop_eq]
    simp
  · have hp : positional 3888 = str "MMMDCCCLXXXVIII" := by decide
    rw [← hp]
    exact decode_positional 3888 (by decide) (by decide)

/-- Instances of C11: the empty text, a text that starts with another character,
and a run of sixteen `I` are rejected by the length checks. -/
theorem decoder_length_checks_witness :
    Py_from_roman_numerals_to_int (str "") = some (-1, str "")
      ∧ Py_from_roman_numerals_to_int (str "!IV") = some (-1, str "!IV")
      ∧ Py_from_roman_numerals_to_int (str "IIIIIIIIIIIIIIII") = some (-1, str "") :=
  ⟨decoder_length_checks.1 (str "") (by decide),
    decoder_length_checks.1 (str "!IV") (by decide),
    decoder_length_checks.1 (str "IIIIIIIIIIIIIIII") (by decide)⟩

/-- C12 fails on the code: the encoder copies a symbol before it tests the
capacity.  For `n = 14` and `size = 2` it writes `V` at offset 2, and for
`n = 1` and `size = 0` it writes `I` at offset 0; both calls return -1. -/
theorem encoder_overrun :
    (∃ buf, Py_to_roman_numerals_from_int 14 (fun _ => 0) 2 = some (-1, buf)
        ∧ buf 2 = chr 'V' ∧ buf 2 ≠ (fun _ => 0) 2)
      ∧ (∃ buf, Py_to_roman_numerals_from_int 1 (fun _ => 0) 0 = some (-1, buf)
        ∧ buf 0 = chr 'I' ∧ buf 0 ≠ (fun _ => 0) 0) :=
  ⟨⟨_, rfl, by decide, by decide⟩, ⟨_, rfl, by decide, by decide⟩⟩

theorem not_roman_digit_cases (c : Nat) (h : ¬ Py_IS_ROMAN_DIGIT c = true) :
    (c ≠ 73 ∧ c ≠ 86 ∧ c ≠ 88 ∧ c ≠ 76 ∧ c ≠ 67 ∧ c ≠ 68 ∧ c ≠ 77)
      ∧ (c ≠ 105 ∧ c ≠ 118 ∧ c ≠ 120 ∧ c ≠ 108 ∧ c ≠ 99 ∧ c ≠ 100 ∧ c ≠ 109) := by
  have hc := char_codes
  simp only [Py_IS_ROMAN_DIGIT, chr, Bool.or_eq_true, beq_iff_eq] at h
  omega

theorem roman_numeral_value_eq_faceValue (c : Nat) : roman_numeral_value c = faceValue c := by
  by_cases hR : Py_IS_ROMAN_DIGIT c = true
  · rcases roman_digit_cases c hR with h | h | h | h | h | h | h | h | h | h | h | h | h | h <;>
      subst h <;> rfl
  · have hn := not_roman_digit_cases c hR
    have hc := char_codes
    have hu : toupper c ≠ 73 ∧ toupper c ≠ 86 ∧ toupper c ≠ 88 ∧ toupper c ≠ 76
        ∧ toupper c ≠ 67 ∧ toupper c ≠ 68 ∧ toupper c ≠ 77 := by
      unfold toupper
      split <;> omega
    have h1 : roman_numeral_value c = 0 := by
      simp only [roman_numeral_value, chr]
      generalize toupper c = u at hu
      split_ifs <;> omega
    have h2 : faceValue c = 0 := by
      simp only [faceValue, chr]
      split_ifs <;> omega
    rw [h1, h2]

theorem faceValue_nonneg (c : Nat) : 0 ≤ faceValue c := by
  unfold faceValue
  split_ifs <;> decide

theorem frPair_signedSum (s : List Nat) :
    frPair s (0, 0) = (signedSum s, (s.head?.map faceValue).getD 0) := by
  induction s with
  | nil => rfl
  | cons c t ih =>
    have h1 : frPair (c :: t) (0, 0) = frStep c (frPair t (0, 0)) := rfl
    rw [h1, ih]
    cases t with
    | nil =>
      have := faceValue_nonneg c
      have hno : ¬ faceValue c < 0 := by omega
      simp [frStep, signedSum, roman_numeral_value_eq_faceValue, hno]
    | cons d rest =>
      simp only [frStep, signedSum, roman_numeral_value_eq_faceValue, List.head?_cons,
        Option.map_some', Option.getD_some]
      rw [Int.add_comm]

theorem from_roman_cstr (s : List Nat) : from_roman (cstr s) s.length = frList s := by
  have := from_roman_eq s []
  rwa [List.append_nil] at this

/-- C14. Relaxed summation: for every text `s` (in particular every string of
Roman digit characters) `from_roman(s, |s|)` is the sum over all positions of
the face value of the character, taken negatively exactly when it is strictly
less than the face value of the next character and positively otherwise (the
last character always positively).  It yields in-range values for runs that are
no numeral: `IIII` gives 4 and `IIX` gives 10, neither being the encoder's output for any
integer; for these runs the length checks pass and the encoder call succeeds,
and only the comparison with the re-encoded text (`IV`, `X`) makes the decoder
return -1. -/
theorem relaxed_summation :
    (∀ s : List Nat, from_roman (cstr s) s.length = signedSum s)
      ∧ (from_roman (cstr (str "IIII")) 4 = 4 ∧ from_roman (cstr (str "IIX")) 3 = 10)
      ∧ ((∀ n : Int, 1 ≤ n → n ≤ 3999 → encode n ≠ some (str "IIII"))
          ∧ (∀ n : Int, 1 ≤ n → n ≤ 3999 → encode n ≠ some (str "IIX")))
      ∧ ((scanLoop (str "IIII") 0).2 = 4 ∧ (scanLoop (str "IIX") 0).2 = 3)
      ∧ ((∃ buf, Py_to_roman_numerals_from_int 4 (fun _ => 0) Py_MAX_ROMAN_SIZE = some (2, buf)
            ∧ text buf 4 = str "IV" ++ [0, 0])
          ∧ (∃ buf, Py_to_roman_numerals_from_int 10 (fun _ => 0) Py_MAX_ROMAN_SIZE
              = some (1, buf) ∧ text buf 3 = str "X" ++ [0, 0]))
      ∧ (Py_from_roman_numerals_to_int (str "IIII") = some (-1, [])
          ∧ Py_from_roman_numerals_to_int (str "IIX") = some (-1, [])) := by
  refine ⟨?_, ⟨by decide, by decide⟩,
    ⟨encode_ne_of_positional_ne _ (by decide), encode_ne_of_positional_ne _ (by decide)⟩,
    ⟨by decide, by decide⟩, ⟨⟨_, rfl, by decide⟩, ⟨_, rfl, by decide⟩⟩, ⟨by decide, by decide⟩⟩
  intro s
  rw [from_roman_cstr, frList, frPair_signedSum]

/-- C15. Classifier and face-value table agree: for every character `c`,
`Py_IS_ROMAN_DIGIT(c)` holds if and only if `roman_numeral_value(c)` is not 0;
so every character that `from_roman` reads inside the decoder (offsets below the
scanned `size`) has a non-zero value: the default branch is not reached. -/
theorem classifier_agrees :
    (∀ c : Nat, Py_IS_ROMAN_DIGIT c = true ↔ roman_numeral_value c ≠ 0)
      ∧ (∀ (ptr : List Nat) (i : Nat), (i : Int) < (scanLoop ptr 0).2 →
          roman_numeral_value (cstr ptr i) ≠ 0) := by
  have part1 : ∀ c : Nat, Py_IS_ROMAN_DIGIT c = true ↔ roman_numeral_value c ≠ 0 := by
    intro c
    constructor
    · intro h
      rcases roman_digit_cases c h with h | h | h | h | h | h | h | h | h | h | h | h | h | h <;>
        subst h <;> decide
    · intro h
      by_contra hR
      apply h
      have hn := not_roman_digit_cases c hR
      have hc := char_codes
      rw [roman_numeral_value_eq_faceValue]
      simp only [faceValue, chr]
      split_ifs <;> omega
  refine ⟨part1, ?_⟩
  intro ptr i hi
  rw [scanLoop_eq] at hi
  simp only [zero_add, Nat.cast_lt] at hi
  apply (part1 _).1
  have hptr := List.takeWhile_append_dropWhile Py_IS_ROMAN_DIGIT ptr
  have hget : cstr ptr i = (ptr.takeWhile Py_IS_ROMAN_DIGIT)[i] := by
    conv_lhs => rw [← hptr]
    exact cstr_append_lt _ _ i hi
  rw [hget]
  exact List.mem_takeWhile_imp (List.getElem_mem _)

/-- Instance of C15: on `xiv!` the scan stops with `size = 3`, and the character
at offset 2, `v`, has value 5. -/
theorem classifier_agrees_witness :
    ((2 : Nat) : Int) < (scanLoop (str "xiv!") 0).2
      ∧ roman_numeral_value (cstr (str "xiv!") 2) ≠ 0
      ∧ roman_numeral_value (cstr (str "xiv!") 2) = 5
      ∧ (Py_IS_ROMAN_DIGIT (chr '!') = false ∧ roman_numeral_value (chr '!') = 0) :=
  ⟨by decide, classifier_agrees.2 (str "xiv!") 2 (by decide), by decide, by decide, by decide⟩

/-- C17. Rule table invariant: the encoder's table has exactly thirteen rules,
their values are 1000, 900, 500, 400, 100, 90, 50, 40, 10, 9, 5, 4, 1, strictly
descending, each rule's `size` field is the length of its symbol, and the
relaxed summation of each rule's symbol is that rule's value. -/
theorem rule_table_invariant :
    map.length = 13
      ∧ map.map Numeral.value = [1000, 900, 500, 400, 100, 90, 50, 40, 10, 9, 5, 4, 1]
      ∧ List.Pairwise (fun a b : Int => b < a) (map.map Numeral.value)
      ∧ (∀ r ∈ map, r.size = r.numeral.length)
      ∧ (∀ r ∈ map, from_roman (cstr r.numeral) r.size = r.value) := by
  refine ⟨by decide, by decide, by decide, by decide, by decide⟩


theorem roman_value_cases (c : Nat) (h : Py_IS_ROMAN_DIGIT c = true) :
    roman_numeral_value c = 1 ∨ roman_numeral_value c = 5 ∨ roman_numeral_value c = 10
      ∨ roman_numeral_value c = 50 ∨ roman_numeral_value c = 100 ∨ roman_numeral_value c = 500
      ∨ roman_numeral_value c = 1000 := by
  rcases roman_digit_cases c h with h | h | h | h | h | h | h | h | h | h | h | h | h | h <;>
    subst h <;> decide

/-- Invariant of the loop of `from_roman` on Roman digits: the total is at least
the value seen last and at most 1000 per character. -/
theorem frPair_bounds (s : List Nat) (hs : ∀ c ∈ s, Py_IS_ROMAN_DIGIT c = true) :
    (frPair s (0, 0)).2 ≤ (frPair s (0, 0)).1
      ∧ (frPair s (0, 0)).1 ≤ 1000 * (s.length : Int)
      ∧ ((frPair s (0, 0)).2 = 0 ∨ (frPair s (0, 0)).2 = 1 ∨ (frPair s (0, 0)).2 = 5
          ∨ (frPair s (0, 0)).2 = 10 ∨ (frPair s (0, 0)).2 = 50 ∨ (frPair s (0, 0)).2 = 100
          ∨ (frPair s (0, 0)).2 = 500 ∨ (frPair s (0, 0)).2 = 1000)
      ∧ (s ≠ [] → 1 ≤ (frPair s (0, 0)).2) := by
  induction s with
  | nil => simp [frPair]
  | cons c t ih =>
    obtain ⟨i1, i2, i3, -⟩ := ih (fun d hd => hs d (List.mem_cons_of_mem _ hd))
    have hv := roman_value_cases c (hs c (List.mem_cons_self _ _))
    have h1 : frPair (c :: t) (0, 0) = frStep c (frPair t (0, 0)) := rfl
    rw [h1]
    generalize frPair t (0, 0) = x at i1 i2 i3
    obtain ⟨total, prev⟩ := x
    simp only [frStep, List.length_cons, Nat.cast_add, Nat.cast_one] at i1 i2 i3 ⊢
    generalize roman_numeral_value c = v at hv
    refine ⟨?_, ?_, ?_, ?_⟩
    · split_ifs <;> omega
    · split_ifs <;> omega
    · omega
    · intro _; omega

theorem frList_bounds (s : List Nat) (hne : s ≠ [])
    (hs : ∀ c ∈ s, Py_IS_ROMAN_DIGIT c = true) :
    1 ≤ frList s ∧ frList s ≤ 1000 * (s.length : Int) := by
  obtain ⟨i1, i2, -, i4⟩ := frPair_bounds s hs
  have := i4 hne
  unfold frList
  omega


/-- C16. Candidate value is positive and bounded: for every non-empty string `s` of
Roman digit characters, `1 ≤ from_roman(s, |s|) ≤ 1000 * |s|`.  Hence, whenever
the decoder passes its length checks (run of 1 to 15 characters), the candidate
lies in `[1, 15000]`, well inside the range of `int`, and when the decoder then
fails, the cause is not the encoder's `n <= 0` test: either the candidate
exceeds 3999 or the encoder succeeds and its text differs from the upper-cased
run. -/
theorem candidate_bounds :
    (∀ s : List Nat, s ≠ [] → (∀ c ∈ s, Py_IS_ROMAN_DIGIT c = true) →
        1 ≤ from_roman (cstr s) s.length ∧ from_roman (cstr s) s.length ≤ 1000 * (s.length : Int))
      ∧ (∀ ptr : List Nat,
          ¬ ((scanLoop ptr 0).2 = 0 ∨ (scanLoop ptr 0).2 ≥ Py_MAX_ROMAN_SIZE) →
          1 ≤ from_roman (cstr ptr) (scanLoop ptr 0).2
            ∧ from_roman (cstr ptr) (scanLoop ptr 0).2 ≤ 15000
            ∧ (15000 : Int) < 2 ^ 31
            ∧ (∀ p, Py_from_roman_numerals_to_int ptr = some (-1, p) →
                3999 < from_roman (cstr ptr) (scanLoop ptr 0).2
                  ∨ ∃ count buf,
                      Py_to_roman_numerals_from_int (from_roman (cstr ptr) (scanLoop ptr 0).2)
                          (fun _ => 0) Py_MAX_ROMAN_SIZE = some (count, buf)
                        ∧ 0 ≤ count
                        ∧ text buf count.toNat
                            ≠ (ptr.takeWhile Py_IS_ROMAN_DIGIT).map toupper)) := by
  constructor
  · intro s hne hs
    rw [from_roman_cstr]
    exact frList_bounds s hne hs
  · intro ptr hlen
    have hrun : ∀ c ∈ ptr.takeWhile Py_IS_ROMAN_DIGIT, Py_IS_ROMAN_DIGIT c = true :=
      fun c hc => List.mem_takeWhile_imp hc
    have hfr : from_roman (cstr ptr) (ptr.takeWhile Py_IS_ROMAN_DIGIT).length
        = frList (ptr.takeWhile Py_IS_ROMAN_DIGIT) := by
      have := from_roman_eq (ptr.takeWhile Py_IS_ROMAN_DIGIT) (ptr.dropWhile Py_IS_ROMAN_DIGIT)
      rwa [List.takeWhile_append_dropWhile] at this
    rw [scanLoop_eq] at hlen ⊢
    simp only [zero_add, Py_MAX_ROMAN_SIZE] at hlen ⊢
    rw [hfr]
    have hne : ptr.takeWhile Py_IS_ROMAN_DIGIT ≠ [] := by
      intro h
      rw [h] at hlen
      simp at hlen
    obtain ⟨b1, b2⟩ := frList_bounds _ hne hrun
    refine ⟨b1, by omega, by decide, ?_⟩
    intro p hp
    by_cases h39 : frList (ptr.takeWhile Py_IS_ROMAN_DIGIT) ≤ 3999
    · right
      have henc := encoder_16 (frList (ptr.takeWhile Py_IS_ROMAN_DIGIT)) (fun _ => 0) b1 h39
      simp only [Py_MAX_ROMAN_SIZE] at henc
      refine ⟨_, _, henc, by omega, ?_⟩
      rw [Int.toNat_ofNat, text_strncpy]
      intro heq
      rw [decoder_eq] at hp
      simp only [Option.some.injEq, Prod.mk.injEq] at hp
      have hd := hp.1
      have hl : ¬ ((ptr.takeWhile Py_IS_ROMAN_DIGIT).length = 0
          ∨ 16 ≤ (ptr.takeWhile Py_IS_ROMAN_DIGIT).length) := by omega
      simp only [decodeRun, hl, if_false, b1, h39, heq.symm, and_self, if_true] at hd
      omega
    · left
      omega

/-- Instance of C16: `IIII` sums to 4, between 1 and 4000; the decoder fails on it
although the candidate 4 is in range, because the encoder writes `IV`. -/
theorem candidate_bounds_witness :
    str "IIII" ≠ [] ∧ (∀ c ∈ str "IIII", Py_IS_ROMAN_DIGIT c = true)
      ∧ (1 ≤ from_roman (cstr (str "IIII")) (str "IIII").length
          ∧ from_roman (cstr (str "IIII")) (str "IIII").length
              ≤ 1000 * ((str "IIII").length : Int))
      ∧ from_roman (cstr (str "IIII")) 4 = 4
      ∧ Py_from_roman_numerals_to_int (str "IIII") = some (-1, []) :=
  ⟨by decide, by decide, candidate_bounds.1 (str "IIII") (by decide) (by decide), by decide,
    by decide⟩

end Roman
